import Mathlib

/-!
# lyru: an LRU cache with a hit-rate driven capacity controller

Shallow embedding of `src/lyru.go`.

Modelling conventions.
* `float64` values are exact rationals (`ℚ`): rounding, infinities and NaN
  capacities are outside the model.  `int(x)` on a float truncates toward zero
  when the result fits an `int64`; outside that range Go leaves the result to
  the implementation, and the result of amd64, the smallest `int64`, is taken.
* Keys are of a type `K comparable`: Go's `==` on keys need not be reflexive (a
  float NaN differs from itself).  `GoKey.selfEq k` is `k == k`; a map never
  finds or deletes a key that is not equal to itself, and every write of it
  adds a binding.
* The counters `hits` and `misses` (Go `int`) are unbounded integers.
* A `*list.Element` is a record carrying its pointer identity `ptr`, and the
  `*entry` it points to (`key`, `value`).  The Go map `cache` is an association
  list from keys to element pointers; `list` is the order list, front first.
* A nil-pointer dereference (the only runtime failure the code can raise) is
  the result `none` of `Put`.
-/

namespace Lyru

/-- An element of the order list: `ptr` is the identity of the `*list.Element`,
`key` and `value` are the fields of the `entry` it holds. -/
structure Element (K V : Type) where
  ptr : Nat
  key : K
  value : V
deriving DecidableEq, Repr

/-- The struct `LRUCache[K, V]`; `capacities0` is `capacities[0]`, the leading slot. -/
structure LRUCache (K V : Type) where
  cache : List (K × Nat)
  list : List (Element K V)
  capacities0 : ℚ
  capacities1 : ℚ
  capacities2 : ℚ
  lastValley : ℚ
  lastPeak : ℚ
  hits : Int
  misses : Int
  CapacityVeloc : ℚ
  MinCapacityVeloc : ℚ
  TargetHitRate : ℚ
  MinCapacity : ℚ
  MaxCapacity : ℚ
  CapacityDecel : ℚ
  EmergencyThreshold : ℚ
  EmergencyCapacityVeloc : ℚ
deriving DecidableEq

variable {K V : Type}

/-- `NewLRUCache()`. -/
def NewLRUCache : LRUCache K V where
  cache := []
  list := []
  capacities0 := 1
  capacities1 := 1
  capacities2 := 1
  CapacityVeloc := 1 / 10
  lastValley := 0
  lastPeak := 0
  TargetHitRate := 1 / 2
  hits := 1
  misses := 1
  MinCapacity := 1
  MaxCapacity := 0
  MinCapacityVeloc := 1 / 1000
  CapacityDecel := 9 / 10
  EmergencyThreshold := 9 / 10
  EmergencyCapacityVeloc := 1 / 10

/-- `WithCapacity(capacity)`. -/
def WithCapacity (c : LRUCache K V) (capacity : ℚ) : LRUCache K V :=
  { c with capacities0 := capacity, capacities1 := capacity, capacities2 := capacity }

/-- `Capacity()`. -/
def Capacity (c : LRUCache K V) : ℚ := c.capacities0

/-- Go's conversion `int(x)` of a float: truncation toward zero when the result is an `int64`.
A `float64` outside the `int64` range is a whole number; for it the result is
implementation-dependent, and the result of amd64, the smallest `int64`, is taken. -/
def truncToInt (x : ℚ) : Int :=
  if x.den = 1 ∧ (x < -2 ^ 63 ∨ 2 ^ 63 ≤ x) then -2 ^ 63
  else if 0 ≤ x then ⌊x⌋ else ⌈x⌉

/-- `IntCapacity()`. -/
def IntCapacity (c : LRUCache K V) : Int := truncToInt c.capacities0

/-- `Hits()`. -/
def Hits (c : LRUCache K V) : Int := c.hits

/-- `Misses()`. -/
def Misses (c : LRUCache K V) : Int := c.misses

/-- `HitRate()`: `float64(c.hits) / float64(c.hits+c.misses)`. -/
def HitRate (c : LRUCache K V) : ℚ := (c.hits : ℚ) / ((c.hits + c.misses : Int) : ℚ)

/-- `LastValley()`. -/
def LastValley (c : LRUCache K V) : ℚ := c.lastValley

/-- `LastPeak()`. -/
def LastPeak (c : LRUCache K V) : ℚ := c.lastPeak

/-- Go's `==` on the key type `K comparable`, as far as it differs from identity: `selfEq k` is
`k == k`, which is false for a float NaN and for a key that contains one. -/
class GoKey (K : Type) where
  selfEq : K → Bool

/-- A key type on which `==` is reflexive (integers, strings, ...). -/
class LawfulKey (K : Type) [GoKey K] : Prop where
  selfEq_true : ∀ k : K, GoKey.selfEq k = true

/-- Integer keys: `==` is reflexive. -/
instance instGoKeyNat : GoKey Nat := ⟨fun _ => true⟩

instance instLawfulKeyNat : LawfulKey Nat := ⟨fun _ => rfl⟩

/-- A `float64` key: a number, or NaN. -/
inductive FloatKey where
  | num (x : Int)
  | nan
deriving DecidableEq, Repr

/-- `==` on `float64` keys: NaN is not equal to itself. -/
instance instGoKeyFloatKey : GoKey FloatKey :=
  ⟨fun k => match k with
    | FloatKey.num _ => true
    | FloatKey.nan => false⟩

section Store

variable [DecidableEq K] [GoKey K]

/-- Key comparison `a == b`: the same value, equal to itself. -/
def keyEq (a b : K) : Bool := decide (a = b) && GoKey.selfEq a

/-- Map read `m[key]` (value and presence flag as an `Option`). -/
def mapLookup (key : K) : List (K × Nat) → Option Nat
  | [] => none
  | (k, p) :: m => if keyEq k key then some p else mapLookup key m

/-- Map `delete(m, key)`. -/
def mapDelete (key : K) (m : List (K × Nat)) : List (K × Nat) :=
  m.filter (fun x => !keyEq x.1 key)

/-- Map write `m[key] = p`. -/
def mapInsert (key : K) (p : Nat) (m : List (K × Nat)) : List (K × Nat) :=
  (key, p) :: mapDelete key m

/-- A pointer different from every pointer in use: what allocating a new
`list.Element` returns. -/
def freshPtr (c : LRUCache K V) : Nat :=
  ((c.list.map Element.ptr) ++ (c.cache.map Prod.snd)).foldr max 0 + 1

/-- The assignment `e.Value.(*entry[K, V]).value = value` through the pointer `p`. -/
def setValue (p : Nat) (value : V) (l : List (Element K V)) : List (Element K V) :=
  l.map (fun e => if e.ptr = p then { e with value := value } else e)

/-- `list.MoveToFront(e)` for the element with pointer `p`; nothing happens when
the element is not in the list. -/
def moveToFront (p : Nat) (l : List (Element K V)) : List (Element K V) :=
  match l.find? (fun e => decide (e.ptr = p)) with
  | some e => e :: l.eraseP (fun e => decide (e.ptr = p))
  | none => l

/-- Lines 68-76 of `Put`: overwrite and move to front, or push a new entry. -/
def insertStep (c : LRUCache K V) (key : K) (value : V) : LRUCache K V :=
  match mapLookup key c.cache with
  | some p => { c with list := moveToFront p (setValue p value c.list) }
  | none =>
    { c with
      list := ⟨freshPtr c, key, value⟩ :: c.list
      cache := mapInsert key (freshPtr c) c.cache }

end Store

/-- The peak test of lines 86-87. -/
def isPeak (c : LRUCache K V) : Bool :=
  (decide (c.capacities0 ≤ c.capacities1) && decide (c.capacities1 > c.capacities2)) ||
  (decide (c.capacities0 < c.capacities1) && decide (c.capacities1 ≥ c.capacities2))

/-- The valley test of lines 91-92. -/
def isValley (c : LRUCache K V) : Bool :=
  decide (c.capacities0 > c.capacities1) && decide (c.capacities1 < c.capacities2) &&
  decide (c.capacities0 ≠ c.capacities1) && decide (c.capacities1 ≠ c.capacities2)

/-- The local flag `justPeaked` after lines 83-96. -/
def justPeaked (c : LRUCache K V) : Bool := isPeak c

/-- The local flag `justValleyed` after lines 83-96. -/
def justValleyed (c : LRUCache K V) : Bool := !isPeak c && isValley c

/-- Lines 83-96 of `Put`: the peak/valley classification. -/
def classifyStep (c : LRUCache K V) : LRUCache K V :=
  if isPeak c then { c with lastPeak := c.capacities1 }
  else if isValley c then { c with lastValley := c.capacities1 }
  else c

/-- Lines 98-107 of `Put`: the directional step. -/
def directionalStep (c : LRUCache K V) : LRUCache K V :=
  if HitRate c > c.TargetHitRate then
    { c with
      capacities2 := c.capacities1
      capacities1 := c.capacities0
      capacities0 := c.capacities0 - c.CapacityVeloc }
  else if HitRate c < c.TargetHitRate then
    { c with
      capacities2 := c.capacities1
      capacities1 := c.capacities0
      capacities0 := c.capacities0 + c.CapacityVeloc }
  else c

/-- Lines 109-124 of `Put`: the oscillation damping, with the two local flags. -/
def dampingStep (jp jv : Bool) (c : LRUCache K V) : LRUCache K V :=
  if c.lastPeak ≠ 0 ∧ c.lastValley ≠ 0 then
    { c with
      capacities0 := (c.lastPeak + c.lastValley) / 2
      capacities1 := (c.lastPeak + c.lastValley) / 2
      capacities2 := (c.lastPeak + c.lastValley) / 2
      CapacityVeloc := c.CapacityVeloc * c.CapacityDecel
      lastValley := if jp then 0 else c.lastValley
      lastPeak := if jv then 0 else c.lastPeak }
  else c

/-- Lines 125-127 of `Put`: the lower clamp. -/
def clampMin (c : LRUCache K V) : LRUCache K V :=
  if c.MinCapacity ≠ 0 ∧ c.capacities0 < c.MinCapacity then
    { c with capacities0 := c.MinCapacity }
  else c

/-- Lines 129-131 of `Put`: the upper clamp. -/
def clampMax (c : LRUCache K V) : LRUCache K V :=
  if c.MaxCapacity ≠ 0 ∧ c.capacities0 > c.MaxCapacity then
    { c with capacities0 := c.MaxCapacity }
  else c

/-- Lines 133-139 of `Put`: the velocity floor and the emergency escape. -/
def emergencyStep (c : LRUCache K V) : LRUCache K V :=
  if c.CapacityVeloc < c.MinCapacityVeloc then
    if HitRate c < c.TargetHitRate * c.EmergencyThreshold then
      { c with CapacityVeloc := c.EmergencyCapacityVeloc }
    else
      { c with CapacityVeloc := c.MinCapacityVeloc }
  else c

/-- Lines 83-139 of `Put`: the capacity controller, run on the state left by
the insertion. -/
def controllerStep (c : LRUCache K V) : LRUCache K V :=
  emergencyStep (clampMax (clampMin
    (dampingStep (justPeaked c) (justValleyed c) (directionalStep (classifyStep c)))))

section Store

variable [DecidableEq K] [GoKey K]

/-- The loop of lines 142-146, on the map and the order list given back first.
Each round tests `len(c.cache) >= int(c.capacities[0])`, takes `c.list.Back()`,
removes it and deletes its key; `c.list.Remove(nil)` on an empty list is a
nil-pointer dereference (`none`). -/
def evictLoop (cap : Int) : List (K × Nat) → List (Element K V) →
    Option (List (K × Nat) × List (Element K V))
  | m, [] => if (m.length : Int) ≥ cap then none else some (m, [])
  | m, e :: rest =>
    if (m.length : Int) ≥ cap then evictLoop cap (mapDelete e.key m) rest
    else some (m, e :: rest)

/-- Lines 141-146 of `Put`: evict from the back of the order list. -/
def evictStep (c : LRUCache K V) : Option (LRUCache K V) :=
  (evictLoop (IntCapacity c) c.cache c.list.reverse).map
    (fun r => { c with cache := r.1, list := r.2.reverse })

/-- `Put(key, value)`; `none` is a run-time panic. -/
def Put (c : LRUCache K V) (key : K) (value : V) : Option (LRUCache K V) :=
  if (insertStep c key value).TargetHitRate = 0 then some (insertStep c key value)
  else evictStep (controllerStep (insertStep c key value))

/-- `Get(key)`: the returned pair `(v, ok)` and the state afterwards.  The zero
value of `V` is `default`. -/
def Get [Inhabited V] (c : LRUCache K V) (key : K) : (V × Bool) × LRUCache K V :=
  match mapLookup key c.cache with
  | none => ((default, false), { c with misses := c.misses + 1 })
  | some p =>
    (((match c.list.find? (fun e => decide (e.ptr = p)) with
        | some e => e.value
        | none => default), true),
      { c with hits := c.hits + 1, list := moveToFront p c.list })

end Store

/-- The order entries as key-value pairs, most recently used first. -/
def entries (c : LRUCache K V) : List (K × V) := c.list.map (fun e => (e.key, e.value))

/-- The link between a map and an order list: the map has one binding per key,
no key and no element occurs twice in the list, every binding of the map refers
to the list element holding its key, every list element is bound, and every
stored key is equal to itself. -/
def Linked [GoKey K] (m : List (K × Nat)) (l : List (Element K V)) : Prop :=
  (m.map Prod.fst).Nodup ∧ (l.map Element.key).Nodup ∧ (l.map Element.ptr).Nodup ∧
  (∀ x ∈ m, ∃ e ∈ l, e.key = x.1 ∧ e.ptr = x.2) ∧
  (∀ e ∈ l, (e.key, e.ptr) ∈ m) ∧
  (∀ x ∈ m, GoKey.selfEq x.1 = true)

/-- The store invariant of a cache: `cache` and `list` are linked. -/
def StoreInv [GoKey K] (c : LRUCache K V) : Prop := Linked c.cache c.list

instance instDecidableLinked [DecidableEq K] [GoKey K] (m : List (K × Nat)) (l : List (Element K V)) :
    Decidable (Linked m l) := by
  unfold Linked; infer_instance

instance instDecidableStoreInv [DecidableEq K] [GoKey K] (c : LRUCache K V) : Decidable (StoreInv c) := by
  unfold StoreInv; infer_instance

/-- The state `c'` has the store, the counters and the configuration of `c`: it differs at most
in the capacity window, the velocity and the peak/valley pair. -/
def ControllerFrame (c c' : LRUCache K V) : Prop :=
  c'.cache = c.cache ∧ c'.list = c.list ∧ c'.hits = c.hits ∧ c'.misses = c.misses ∧
  c'.MinCapacityVeloc = c.MinCapacityVeloc ∧ c'.TargetHitRate = c.TargetHitRate ∧
  c'.MinCapacity = c.MinCapacity ∧ c'.MaxCapacity = c.MaxCapacity ∧
  c'.CapacityDecel = c.CapacityDecel ∧ c'.EmergencyThreshold = c.EmergencyThreshold ∧
  c'.EmergencyCapacityVeloc = c.EmergencyCapacityVeloc

/-- The order a `Put(key, value)` is meant to leave before eviction: the pair `(key, value)`
first, then the previous entries other than `key`, in their previous relative order. -/
def orderWith [DecidableEq K] [GoKey K] (c : LRUCache K V) (key : K) (value : V) :
    List (K × V) :=
  (key, value) :: (entries c).filter (fun x => !keyEq x.1 key)

/-- A cache made by `NewLRUCache().WithCapacity(3)`, keys and values being numbers. -/
def cache3 : LRUCache Nat Nat := WithCapacity NewLRUCache 3

/-- The state of `cache3` after `Put(1, 10)`. -/
def cache3a : LRUCache Nat Nat :=
  { cache3 with cache := [(1, 1)], list := [⟨1, 1, 10⟩] }

/-- The state of `cache3a` after `Put(2, 20)`. -/
def cache3b : LRUCache Nat Nat :=
  { cache3 with cache := [(2, 2), (1, 1)], list := [⟨2, 2, 20⟩, ⟨1, 1, 10⟩] }

/-- The state of `cache3b` after `Put(3, 30)`: the entry of key 1 is evicted. -/
def cache3c : LRUCache Nat Nat :=
  { cache3 with cache := [(3, 3), (2, 2)], list := [⟨3, 3, 30⟩, ⟨2, 2, 20⟩] }

/-- The state of `cache3b` after `Put(1, 99)`: key 1 is overwritten and moved to the front. -/
def cache3d : LRUCache Nat Nat :=
  { cache3 with cache := [(2, 2), (1, 1)], list := [⟨1, 1, 99⟩, ⟨2, 2, 20⟩] }

/-- A call of the public interface that changes the state. -/
inductive Op (K V : Type) where
  | put (key : K) (value : V)
  | get (key : K)

/-- One call; `none` is a run-time panic. -/
def step [DecidableEq K] [GoKey K] [Inhabited V] (c : LRUCache K V) : Op K V → Option (LRUCache K V)
  | Op.put key value => Put c key value
  | Op.get key => some (Get c key).2

/-- A sequence of calls, stopped by the first panic. -/
def run [DecidableEq K] [GoKey K] [Inhabited V] : LRUCache K V → List (Op K V) → Option (LRUCache K V)
  | c, [] => some c
  | c, op :: ops => (step c op).bind (fun c' => run c' ops)

/-- A sequence of `Put` calls, stopped by the first panic. -/
def putAll [DecidableEq K] [GoKey K] : LRUCache K V → List (K × V) → Option (LRUCache K V)
  | c, [] => some c
  | c, kv :: kvs => (Put c kv.1 kv.2).bind (fun c' => putAll c' kvs)

/-- Writes to the eight public configuration fields. -/
def configure (c : LRUCache K V) (capacityVeloc minCapacityVeloc targetHitRate minCapacity
    maxCapacity capacityDecel emergencyThreshold emergencyCapacityVeloc : ℚ) : LRUCache K V :=
  { c with
    CapacityVeloc := capacityVeloc
    MinCapacityVeloc := minCapacityVeloc
    TargetHitRate := targetHitRate
    MinCapacity := minCapacity
    MaxCapacity := maxCapacity
    CapacityDecel := capacityDecel
    EmergencyThreshold := emergencyThreshold
    EmergencyCapacityVeloc := emergencyCapacityVeloc }

/-- The states a client can reach: from `NewLRUCache()` by `WithCapacity`, writes to the public
configuration fields, and calls of `Put` and `Get` that return. -/
inductive Reachable [DecidableEq K] [GoKey K] [Inhabited V] : LRUCache K V → Prop where
  | new : Reachable NewLRUCache
  | withCapacity {c : LRUCache K V} (capacity : ℚ) : Reachable c →
      Reachable (WithCapacity c capacity)
  | configure {c : LRUCache K V} (a b t lo hi d th em : ℚ) : Reachable c →
      Reachable (configure c a b t lo hi d th em)
  | put {c c' : LRUCache K V} (key : K) (value : V) : Reachable c →
      Put c key value = some c' → Reachable c'
  | get {c : LRUCache K V} (key : K) : Reachable c → Reachable (Get c key).2

/-- The cache made by `c := NewLRUCache(); c.TargetHitRate = 0; c.WithCapacity(capacity)`. -/
def staticCache (capacity : ℚ) : LRUCache K V :=
  WithCapacity { (NewLRUCache : LRUCache K V) with TargetHitRate := 0 } capacity

/-- The cache made by
`c := NewLRUCache(); c.MinCapacity = 0; c.CapacityVeloc = 0.5; c.WithCapacity(2)`: the lower
bound is switched off by its sentinel value. -/
def unboundedCache : LRUCache Nat Nat :=
  WithCapacity
    { (NewLRUCache : LRUCache Nat Nat) with MinCapacity := 0, CapacityVeloc := 1 / 2 } 2

/-- The calls `Put(1, 10)`, `Get(1)`, `Put(2, 20)`, `Put(3, 30)`. -/
def shrinkingCalls : List (Op Nat Nat) :=
  [Op.put 1 10, Op.get 1, Op.put 2 20, Op.put 3 30]

/-- The state of `NewLRUCache().WithCapacity(2.5)` after `Put(1, 10)`. -/
def cacheHalf : LRUCache Nat Nat :=
  { (WithCapacity NewLRUCache (5 / 2) : LRUCache Nat Nat) with
    cache := [(1, 1)], list := [⟨1, 1, 10⟩] }

/-- The state after lines 83-124 of `Put`, started on the state `c` left by the insertion:
classification, directional step and damping. -/
def dampedState (c : LRUCache K V) : LRUCache K V :=
  dampingStep (justPeaked c) (justValleyed c) (directionalStep (classifyStep c))

/-- A capacity `x` clamped to the configured bounds of `c`, a bound of 0 being no bound: first
raised to `MinCapacity`, then lowered to `MaxCapacity`. -/
def clampToBounds (c : LRUCache K V) (x : ℚ) : ℚ :=
  if c.MaxCapacity ≠ 0 ∧ (if c.MinCapacity ≠ 0 ∧ x < c.MinCapacity then c.MinCapacity else x) >
      c.MaxCapacity then c.MaxCapacity
  else if c.MinCapacity ≠ 0 ∧ x < c.MinCapacity then c.MinCapacity else x

/-- The number of rounds the loop of lines 142-146 runs, on the map and the order list given
back first (see `evictLoop`). -/
def evictRounds [DecidableEq K] [GoKey K] (cap : Int) : List (K × Nat) → List (Element K V) → Nat
  | _, [] => 0
  | m, e :: rest =>
    if (m.length : Int) ≥ cap then evictRounds cap (mapDelete e.key m) rest + 1 else 0

/-- The three window slots, leading slot first. -/
def window (c : LRUCache K V) : ℚ × ℚ × ℚ := (c.capacities0, c.capacities1, c.capacities2)

/-- The midpoint `(lastPeak + lastValley) / 2` of the recorded peak and valley. -/
def midpoint (c : LRUCache K V) : ℚ := (c.lastPeak + c.lastValley) / 2

/-- The calls that take `cache3` through a peak and to the brink of a valley: two `Put`s, a hit,
a `Put` that shrinks the capacity to 2.9, two misses, and a `Put` that grows it back to 3. -/
def oscCalls : List (Op Nat Nat) :=
  [Op.put 1 10, Op.put 2 20, Op.get 1, Op.put 3 30, Op.get 9, Op.get 9, Op.put 4 40]

/-- The state of `cache3` after `oscCalls`: window (3, 2.9, 3), recorded peak 3. -/
def oscCache : LRUCache Nat Nat :=
  { cache3 with
    cache := [(4, 4), (3, 3)], list := [⟨4, 4, 40⟩, ⟨3, 3, 30⟩]
    capacities1 := 29 / 10, lastPeak := 3, hits := 2, misses := 3 }

/-- The state `oscCache` after the write `c.CapacityVeloc = 0.001`. -/
def slowCache : LRUCache Nat Nat :=
  configure oscCache (1 / 1000) (1 / 1000) (1 / 2) 1 0 (9 / 10) (9 / 10) (1 / 10)

/-- The state of `unboundedCache` after `shrinkingCalls`: capacity 1, an empty store, and no
lower or upper bound. -/
def unboundedLow : LRUCache Nat Nat :=
  { unboundedCache with
    capacities0 := 1, capacities1 := 3 / 2, capacities2 := 2, lastPeak := 2, hits := 2 }

/-- The cache made by `c := NewLRUCache(); c.MaxCapacity = 3; c.WithCapacity(3)`, after a
`Get` that missed. -/
def boundedCache : LRUCache Nat Nat :=
  { cache3 with MaxCapacity := 3, misses := 2 }

/-- The state of `boundedCache` after `Put(1, 10)`: the capacity 3.1 is clamped to 3. -/
def boundedAfter : LRUCache Nat Nat :=
  { boundedCache with cache := [(1, 1)], list := [⟨1, 1, 10⟩] }

/-- The state of `oscCache` after `Put(5, 50)`: the oscillation between the peak 3 and the
valley 2.9 is resolved at 2.95, and the velocity is 0.09. -/
def oscAfter : LRUCache Nat Nat :=
  { oscCache with
    cache := [(5, 5)], list := [⟨5, 5, 50⟩]
    capacities0 := 59 / 20, capacities1 := 59 / 20, capacities2 := 59 / 20
    lastPeak := 0, lastValley := 29 / 10, CapacityVeloc := 9 / 100 }

/-- The state of `cache3b` after `Get(1)`, a hit: key 1 is in front and `hits = 2`. -/
def hitCache : LRUCache Nat Nat :=
  { cache3b with hits := 2, list := [⟨1, 1, 10⟩, ⟨2, 2, 20⟩] }

/-- The state of `hitCache` after `Put(3, 30)`: the capacity shrinks to 2.9 and only the new
entry is kept. -/
def hitAfter : LRUCache Nat Nat :=
  { hitCache with cache := [(3, 3)], list := [⟨3, 3, 30⟩], capacities0 := 29 / 10 }

/-- The states a client reaches when every key it puts is equal to itself (`key == key`, no
NaN): from `NewLRUCache()` by `WithCapacity`, configuration writes, such `Put`s that return, and
`Get`s. -/
inductive CleanReachable [DecidableEq K] [GoKey K] [Inhabited V] : LRUCache K V → Prop where
  | new : CleanReachable NewLRUCache
  | withCapacity {c : LRUCache K V} (capacity : ℚ) : CleanReachable c →
      CleanReachable (WithCapacity c capacity)
  | configure {c : LRUCache K V} (a b t lo hi d th em : ℚ) : CleanReachable c →
      CleanReachable (configure c a b t lo hi d th em)
  | put {c c' : LRUCache K V} (key : K) (value : V) : CleanReachable c →
      GoKey.selfEq key = true → Put c key value = some c' → CleanReachable c'
  | get {c : LRUCache K V} (key : K) : CleanReachable c → CleanReachable (Get c key).2

/-- The state of `unboundedCache` after `Put(1, 10)` and `Get(1)`, a hit. -/
def unboundedHit : LRUCache Nat Nat :=
  { unboundedCache with cache := [(1, 1)], list := [⟨1, 1, 10⟩], hits := 2 }

/-- The state of `unboundedHit` after `Put(2, 20)`: the capacity 2 shrinks to 1.5 and the store
is emptied. -/
def unboundedHitAfter : LRUCache Nat Nat :=
  { unboundedCache with capacities0 := 3 / 2, hits := 2 }

/-- The state of `slowCache` after `Put(5, 50)`: as `oscAfter`, with the velocity reset to
`EmergencyCapacityVeloc`. -/
def slowAfter : LRUCache Nat Nat :=
  { oscAfter with CapacityVeloc := 1 / 10 }

/-! ## Lemmas and theorems -/

section Proofs

set_option linter.unusedSectionVars false

variable [DecidableEq K] [GoKey K]

theorem keyEq_iff {a b : K} : keyEq a b = true ↔ a = b ∧ GoKey.selfEq a = true := by
  simp [keyEq]

theorem keyEq_of_selfEq {a b : K} (h : GoKey.selfEq b = true) : keyEq a b = true ↔ a = b := by
  rw [keyEq_iff]
  constructor
  · exact fun h1 => h1.1
  · intro h1; exact ⟨h1, h1 ▸ h⟩

theorem keyEq_false_of_not_selfEq {a b : K} (h : ¬ GoKey.selfEq b = true) :
    keyEq a b = false := by
  cases hk : keyEq a b
  · rfl
  · exfalso
    obtain ⟨h1, h2⟩ := keyEq_iff.1 hk
    exact h (h1 ▸ h2)

theorem mapLookup_none_of_not_mem {key : K} {m : List (K × Nat)}
    (h : key ∉ m.map Prod.fst) : mapLookup key m = none := by
  induction m with
  | nil => simp [mapLookup]
  | cons x m ih =>
    obtain ⟨k, p⟩ := x
    simp only [List.map_cons, List.mem_cons, not_or] at h
    have hk : keyEq k key = false := by
      cases hke : keyEq k key
      · rfl
      · exact absurd (keyEq_iff.1 hke).1.symm h.1
    simp [mapLookup, hk, ih h.2]

theorem mapLookup_none_of_not_selfEq {key : K} {m : List (K × Nat)}
    (h : ¬ GoKey.selfEq key = true) : mapLookup key m = none := by
  induction m with
  | nil => simp [mapLookup]
  | cons x m ih =>
    obtain ⟨k, p⟩ := x
    simp [mapLookup, keyEq_false_of_not_selfEq h, ih]

theorem mem_of_mapLookup {key : K} {p : Nat} {m : List (K × Nat)}
    (h : mapLookup key m = some p) : (key, p) ∈ m := by
  induction m with
  | nil => simp [mapLookup] at h
  | cons x m ih =>
    obtain ⟨k, q⟩ := x
    cases hk : keyEq k key
    · simp only [mapLookup, hk] at h
      exact List.mem_cons_of_mem _ (ih (by simpa using h))
    · simp only [mapLookup, hk, if_true, Option.some.injEq] at h
      rw [(keyEq_iff.1 hk).1, h]
      exact List.mem_cons_self _ _

theorem mapLookup_eq_none {key : K} {m : List (K × Nat)} (hk : GoKey.selfEq key = true) :
    mapLookup key m = none ↔ key ∉ m.map Prod.fst := by
  constructor
  · intro h hmem
    induction m with
    | nil => simp at hmem
    | cons x m ih =>
      obtain ⟨k, p⟩ := x
      cases hke : keyEq k key
      · simp only [mapLookup, hke] at h
        simp only [List.map_cons, List.mem_cons] at hmem
        rcases hmem with h1 | h1
        · rw [(keyEq_of_selfEq hk).2 h1.symm] at hke
          exact absurd hke (by simp)
        · exact ih (by simpa using h) h1
      · simp [mapLookup, hke] at h
  · exact mapLookup_none_of_not_mem

theorem mapLookup_of_mem {key : K} {p : Nat} {m : List (K × Nat)}
    (hk : GoKey.selfEq key = true)
    (hm : (m.map Prod.fst).Nodup) (h : (key, p) ∈ m) : mapLookup key m = some p := by
  induction m with
  | nil => simp at h
  | cons x m ih =>
    obtain ⟨k, q⟩ := x
    simp only [List.map_cons, List.nodup_cons, List.mem_map, not_exists, not_and] at hm
    rcases List.mem_cons.1 h with h1 | h1
    · cases h1
      simp [mapLookup, (keyEq_of_selfEq hk).2 rfl]
    · have hne : k ≠ key := by
        intro hke
        exact hm.1 (key, p) h1 hke.symm
      have hke : keyEq k key = false := by
        cases hh : keyEq k key
        · rfl
        · exact absurd (keyEq_iff.1 hh).1 hne
      simp [mapLookup, hke, ih hm.2 h1]

theorem mem_mapDelete {key : K} {m : List (K × Nat)} {x : K × Nat} :
    x ∈ mapDelete key m ↔ x ∈ m ∧ keyEq x.1 key = false := by
  simp [mapDelete]

theorem mapDelete_of_not_mem {key : K} {m : List (K × Nat)}
    (h : key ∉ m.map Prod.fst) : mapDelete key m = m := by
  unfold mapDelete
  rw [List.filter_eq_self]
  intro x hx
  have hne : x.1 ≠ key := fun e => h (e ▸ List.mem_map_of_mem Prod.fst hx)
  cases hh : keyEq x.1 key
  · rfl
  · exact absurd (keyEq_iff.1 hh).1 hne

theorem mapDelete_of_not_selfEq {key : K} {m : List (K × Nat)}
    (h : ¬ GoKey.selfEq key = true) : mapDelete key m = m := by
  unfold mapDelete
  rw [List.filter_eq_self]
  intro x _
  simp [keyEq_false_of_not_selfEq h]

theorem nodup_keys_mapDelete {key : K} {m : List (K × Nat)}
    (h : (m.map Prod.fst).Nodup) : ((mapDelete key m).map Prod.fst).Nodup :=
  (List.Sublist.map _ (List.filter_sublist m)).nodup h

theorem Linked.length_eq {m : List (K × Nat)} {l : List (Element K V)} (h : Linked m l) :
    m.length = l.length := by
  obtain ⟨hm, hk, _, h1, h2, _⟩ := h
  have hm' : m.Nodup := List.Nodup.of_map _ hm
  have hl' : (l.map (fun e => (e.key, e.ptr))).Nodup := by
    have : (l.map (fun e => (e.key, e.ptr))).map Prod.fst = l.map Element.key := by
      simp [List.map_map, Function.comp_def]
    exact List.Nodup.of_map Prod.fst (this ▸ hk)
  have hp : m.Perm (l.map (fun e => (e.key, e.ptr))) := by
    rw [List.perm_ext_iff_of_nodup hm' hl']
    intro x
    constructor
    · intro hx
      obtain ⟨e, he, h3, h4⟩ := h1 x hx
      exact List.mem_map.2 ⟨e, he, by rw [h3, h4]⟩
    · intro hx
      obtain ⟨e, he, rfl⟩ := List.mem_map.1 hx
      exact h2 e he
  simpa using hp.length_eq

/-- Every key held by an element of a linked store is equal to itself. -/
theorem Linked.selfEq_of_mem {m : List (K × Nat)} {l : List (Element K V)} (h : Linked m l)
    {e : Element K V} (he : e ∈ l) : GoKey.selfEq e.key = true :=
  h.2.2.2.2.2 _ (h.2.2.2.2.1 e he)
theorem lt_freshPtr_of_mem {xs : List Nat} {x : Nat} (h : x ∈ xs) : x < xs.foldr max 0 + 1 := by
  induction xs with
  | nil => simp at h
  | cons y ys ih =>
    rcases List.mem_cons.1 h with h1 | h1
    · subst h1
      simp only [List.foldr_cons]
      omega
    · have := ih h1
      simp only [List.foldr_cons]
      omega

theorem freshPtr_not_mem (c : LRUCache K V) : freshPtr c ∉ c.list.map Element.ptr := by
  intro h
  have : freshPtr c < freshPtr c :=
    lt_freshPtr_of_mem (List.mem_append_left (c.cache.map Prod.snd) h)
  exact lt_irrefl _ this

theorem moveToFront_split {p : Nat} (l1 l2 : List (Element K V)) {e : Element K V}
    (h1 : ∀ x ∈ l1, x.ptr ≠ p) (he : e.ptr = p) :
    moveToFront p (l1 ++ e :: l2) = e :: (l1 ++ l2) := by
  have hf : (l1 ++ e :: l2).find? (fun x => decide (x.ptr = p)) = some e := by
    induction l1 with
    | nil => simp [he]
    | cons a l1 ih =>
      have ha : a.ptr ≠ p := h1 a (List.mem_cons_self _ _)
      simp only [List.cons_append, List.find?_cons, ha, decide_False]
      exact ih (fun x hx => h1 x (List.mem_cons_of_mem _ hx))
  have hr : (l1 ++ e :: l2).eraseP (fun x => decide (x.ptr = p)) = l1 ++ l2 := by
    clear hf
    induction l1 with
    | nil => simp [he]
    | cons a l1 ih =>
      have ha : a.ptr ≠ p := h1 a (List.mem_cons_self _ _)
      simp only [List.cons_append, List.eraseP_cons, ha, decide_False]
      simp [ih (fun x hx => h1 x (List.mem_cons_of_mem _ hx))]
  simp [moveToFront, hf, hr]

theorem setValue_of_forall_ne {p : Nat} {v : V} {l : List (Element K V)}
    (h : ∀ x ∈ l, x.ptr ≠ p) : setValue p v l = l := by
  unfold setValue
  conv_rhs => rw [← List.map_id l]
  apply List.map_congr_left
  intro x hx
  simp [h x hx]

theorem setValue_split {p : Nat} {v : V} {l1 l2 : List (Element K V)} {e : Element K V}
    (h1 : ∀ x ∈ l1, x.ptr ≠ p) (h2 : ∀ x ∈ l2, x.ptr ≠ p) (he : e.ptr = p) :
    setValue p v (l1 ++ e :: l2) = l1 ++ { e with value := v } :: l2 := by
  have a1 := setValue_of_forall_ne (v := v) h1
  have a2 := setValue_of_forall_ne (v := v) h2
  unfold setValue at a1 a2 ⊢
  simp [a1, a2, he]

/-- A list element splits the list, and with unique pointers and keys no other element shares
its pointer or key. -/
theorem split_of_mem {l : List (Element K V)} {e : Element K V}
    (hk : (l.map Element.key).Nodup) (hp : (l.map Element.ptr).Nodup) (he : e ∈ l) :
    ∃ l1 l2, l = l1 ++ e :: l2 ∧ (∀ x ∈ l1 ++ l2, x.ptr ≠ e.ptr) ∧
      (∀ x ∈ l1 ++ l2, x.key ≠ e.key) := by
  obtain ⟨l1, l2, rfl⟩ := List.append_of_mem he
  refine ⟨l1, l2, rfl, ?_, ?_⟩
  · intro x hx hxe
    have hp' : ((l1 ++ l2).map Element.ptr ++ [e.ptr]).Nodup := by
      have : ((l1 ++ e :: l2).map Element.ptr).Perm ((l1 ++ l2).map Element.ptr ++ [e.ptr]) := by
        simp only [List.map_append, List.map_cons]
        rw [List.append_assoc]
        exact List.Perm.append_left _ (List.perm_append_singleton _ _).symm
      exact this.nodup_iff.1 hp
    have hd := (List.nodup_append.1 hp').2.2
    exact hd (List.mem_map_of_mem Element.ptr hx) (by simp [hxe])
  · intro x hx hxe
    have hk' : ((l1 ++ l2).map Element.key ++ [e.key]).Nodup := by
      have : ((l1 ++ e :: l2).map Element.key).Perm ((l1 ++ l2).map Element.key ++ [e.key]) := by
        simp only [List.map_append, List.map_cons]
        rw [List.append_assoc]
        exact List.Perm.append_left _ (List.perm_append_singleton _ _).symm
      exact this.nodup_iff.1 hk
    have hd := (List.nodup_append.1 hk').2.2
    exact hd (List.mem_map_of_mem Element.key hx) (by simp [hxe])

/-- Linkage only depends on the keys and pointers of the list, up to reordering. -/
theorem Linked.of_perm {m : List (K × Nat)} {l l' : List (Element K V)} (h : Linked m l)
    (hp : (l'.map (fun e => (e.key, e.ptr))).Perm (l.map (fun e => (e.key, e.ptr)))) :
    Linked m l' := by
  obtain ⟨hm, hk, hq, h1, h2, h6⟩ := h
  have e1 : ∀ t : List (Element K V), t.map Element.key = (t.map (fun e => (e.key, e.ptr))).map Prod.fst := by
    intro t; simp [List.map_map, Function.comp_def]
  have e2 : ∀ t : List (Element K V), t.map Element.ptr = (t.map (fun e => (e.key, e.ptr))).map Prod.snd := by
    intro t; simp [List.map_map, Function.comp_def]
  refine ⟨hm, ?_, ?_, ?_, ?_, h6⟩
  · rw [e1]; rw [e1] at hk; exact (hp.map Prod.fst).nodup_iff.2 hk
  · rw [e2]; rw [e2] at hq; exact (hp.map Prod.snd).nodup_iff.2 hq
  · intro x hx
    obtain ⟨e, he, h3, h4⟩ := h1 x hx
    have : (e.key, e.ptr) ∈ l'.map (fun e => (e.key, e.ptr)) :=
      hp.mem_iff.2 (List.mem_map_of_mem _ he)
    obtain ⟨e', he', h5⟩ := List.mem_map.1 this
    simp only [Prod.mk.injEq] at h5
    exact ⟨e', he', h5.1.trans h3, h5.2.trans h4⟩
  · intro e he
    have : (e.key, e.ptr) ∈ l.map (fun e => (e.key, e.ptr)) :=
      hp.mem_iff.1 (List.mem_map_of_mem _ he)
    obtain ⟨e', he', h5⟩ := List.mem_map.1 this
    rw [← h5]
    exact h2 e' he'
theorem insertStep_frame (c : LRUCache K V) (key : K) (value : V) :
    insertStep c key value =
      { c with cache := (insertStep c key value).cache, list := (insertStep c key value).list } := by
  unfold insertStep
  cases mapLookup key c.cache <;> rfl

theorem insertStep_absent {c : LRUCache K V} {key : K} (value : V)
    (h : mapLookup key c.cache = none) :
    insertStep c key value =
      { c with cache := (key, freshPtr c) :: c.cache,
               list := ⟨freshPtr c, key, value⟩ :: c.list } := by
  have hk : mapDelete key c.cache = c.cache := by
    by_cases hs : GoKey.selfEq key = true
    · exact mapDelete_of_not_mem ((mapLookup_eq_none hs).1 h)
    · exact mapDelete_of_not_selfEq hs
  simp [insertStep, h, mapInsert, hk]

theorem insertStep_present {c : LRUCache K V} {l1 l2 : List (Element K V)} {e : Element K V}
    (value : V) (hc : StoreInv c) (hl : c.list = l1 ++ e :: l2) :
    insertStep c e.key value =
      { c with list := { e with value := value } :: (l1 ++ l2) } := by
  have he : e ∈ c.list := by rw [hl]; simp
  have hse := Linked.selfEq_of_mem hc he
  obtain ⟨hm, hk, hp, h1, h2, _⟩ := hc
  have hlk : mapLookup e.key c.cache = some e.ptr := mapLookup_of_mem hse hm (h2 e he)
  rw [hl] at hp
  have hne : ∀ x ∈ l1 ++ l2, x.ptr ≠ e.ptr := by
    intro x hx hxe
    have hp' : ((l1 ++ l2).map Element.ptr ++ [e.ptr]).Nodup := by
      have : ((l1 ++ e :: l2).map Element.ptr).Perm ((l1 ++ l2).map Element.ptr ++ [e.ptr]) := by
        simp only [List.map_append, List.map_cons]
        rw [List.append_assoc]
        exact List.Perm.append_left _ (List.perm_append_singleton _ _).symm
      exact this.nodup_iff.1 hp
    exact (List.nodup_append.1 hp').2.2 (List.mem_map_of_mem Element.ptr hx) (by simp [hxe])
  have hs := setValue_split (v := value) (e := e) (p := e.ptr)
    (fun x hx => hne x (List.mem_append_left _ hx))
    (fun x hx => hne x (List.mem_append_right _ hx)) rfl
  have hmv := moveToFront_split (p := e.ptr) l1 l2
    (e := { e with value := value }) (fun x hx => hne x (List.mem_append_left _ hx)) rfl
  simp only [insertStep, hlk, hl, hs, hmv]

theorem filter_key_ne_of_forall {k : K} {l : List (Element K V)} (h : ∀ x ∈ l, x.key ≠ k) :
    (l.map (fun e => (e.key, e.value))).filter (fun x => !keyEq x.1 k) =
      l.map (fun e => (e.key, e.value)) := by
  rw [List.filter_eq_self]
  intro x hx
  obtain ⟨e, he, rfl⟩ := List.mem_map.1 hx
  cases hh : keyEq e.key k
  · rfl
  · exact absurd (keyEq_iff.1 hh).1 (h e he)

/-- The insertion step puts `(key, value)` in front of the other entries, whose relative order
is kept, and keeps the store invariant. -/
theorem insertStep_spec {c : LRUCache K V} (key : K) (value : V) (hc : StoreInv c)
    (hs : GoKey.selfEq key = true) :
    StoreInv (insertStep c key value) ∧
    entries (insertStep c key value) =
      (key, value) :: (entries c).filter (fun x => !keyEq x.1 key) := by
  cases hlk : mapLookup key c.cache with
  | none =>
    have hnk : key ∉ c.cache.map Prod.fst := (mapLookup_eq_none hs).1 hlk
    have hnl : ∀ x ∈ c.list, x.key ≠ key := by
      intro x hx hxe
      exact hnk (hxe ▸ List.mem_map_of_mem Prod.fst (hc.2.2.2.2.1 x hx))
    rw [insertStep_absent value hlk]
    obtain ⟨hm, hk, hp, h1, h2, h6⟩ := hc
    refine ⟨⟨?_, ?_, ?_, ?_, ?_, ?_⟩, ?_⟩
    · simpa using ⟨by simpa using hnk, hm⟩
    · simp only [List.map_cons, List.nodup_cons]
      refine ⟨?_, hk⟩
      intro hmem
      obtain ⟨x, hx, hxe⟩ := List.mem_map.1 hmem
      exact hnl x hx hxe
    · simp only [List.map_cons, List.nodup_cons]
      exact ⟨freshPtr_not_mem c, hp⟩
    · intro x hx
      rcases List.mem_cons.1 hx with rfl | hx
      · exact ⟨_, List.mem_cons_self _ _, rfl, rfl⟩
      · obtain ⟨e, he, h3, h4⟩ := h1 x hx
        exact ⟨e, List.mem_cons_of_mem _ he, h3, h4⟩
    · intro e he
      rcases List.mem_cons.1 he with rfl | he
      · exact List.mem_cons_self _ _
      · exact List.mem_cons_of_mem _ (h2 e he)
    · intro x hx
      rcases List.mem_cons.1 hx with rfl | hx
      · exact hs
      · exact h6 x hx
    · simp only [entries, List.map_cons]
      rw [filter_key_ne_of_forall hnl]
  | some p =>
    have hmem := mem_of_mapLookup hlk
    obtain ⟨e, he, h3, h4⟩ := hc.2.2.2.1 _ hmem
    simp only at h3 h4
    obtain ⟨l1, l2, hl, hne, hnk⟩ := split_of_mem hc.2.1 hc.2.2.1 he
    subst h3
    rw [insertStep_present value hc hl]
    refine ⟨?_, ?_⟩
    · have hc' : Linked c.cache (l1 ++ e :: l2) := hl ▸ hc
      refine Linked.of_perm hc' ?_
      simp only [List.map_cons, List.map_append]
      exact List.perm_middle.symm
    · simp only [entries, hl, List.map_cons, List.map_append, List.filter_append, List.filter_cons]
      rw [filter_key_ne_of_forall (fun x hx => hnk x (List.mem_append_left _ hx)),
        filter_key_ne_of_forall (fun x hx => hnk x (List.mem_append_right _ hx))]
      simp [(keyEq_of_selfEq hs).2 rfl]
theorem Linked.dropLast {m : List (K × Nat)} {l : List (Element K V)} {e : Element K V}
    (h : Linked m (l ++ [e])) : Linked (mapDelete e.key m) l := by
  have hse : GoKey.selfEq e.key = true := Linked.selfEq_of_mem h (by simp)
  obtain ⟨hm, hk, hp, h1, h2, h6⟩ := h
  have hk' : (l.map Element.key).Nodup ∧ e.key ∉ l.map Element.key := by
    have := hk
    simp only [List.map_append, List.map_cons, List.map_nil] at this
    have h3 := List.nodup_append.1 this
    exact ⟨h3.1, fun hmem => h3.2.2 hmem (by simp)⟩
  have hp' : (l.map Element.ptr).Nodup := by
    have := hp
    simp only [List.map_append] at this
    exact (List.nodup_append.1 this).1
  refine ⟨nodup_keys_mapDelete hm, hk'.1, hp', ?_, ?_, ?_⟩
  · intro x hx
    obtain ⟨hxm, hxk⟩ := mem_mapDelete.1 hx
    obtain ⟨e', he', h3, h4⟩ := h1 x hxm
    rcases List.mem_append.1 he' with h5 | h5
    · exact ⟨e', h5, h3, h4⟩
    · simp only [List.mem_singleton] at h5
      subst h5
      rw [(keyEq_of_selfEq hse).2 h3.symm] at hxk
      exact absurd hxk (by simp)
  · intro e' he'
    refine mem_mapDelete.2 ⟨h2 e' (List.mem_append_left _ he'), ?_⟩
    cases hh : keyEq e'.key e.key
    · rfl
    · exact absurd ((keyEq_iff.1 hh).1 ▸ List.mem_map_of_mem Element.key he') hk'.2
  · intro x hx
    exact h6 x (mem_mapDelete.1 hx).1

/-- When the loop returns, the map holds fewer bindings than the threshold. -/
theorem evictLoop_length_lt {cap : Int} :
    ∀ (r : List (Element K V)) (m : List (K × Nat)) (res : List (K × Nat) × List (Element K V)),
      evictLoop cap m r = some res → (res.1.length : Int) < cap := by
  intro r
  induction r with
  | nil =>
    intro m res h
    by_cases hc : (m.length : Int) ≥ cap
    · simp [evictLoop, hc] at h
    · simp only [evictLoop, hc, if_false, Option.some.injEq] at h
      subst h
      simpa using hc
  | cons e r ih =>
    intro m res h
    by_cases hc : (m.length : Int) ≥ cap
    · simp only [evictLoop, hc, if_true] at h
      exact ih _ _ h
    · simp only [evictLoop, hc, if_false, Option.some.injEq] at h
      subst h
      simpa using hc

/-- On a linked store and with a threshold of at least 1 the loop returns, keeps exactly the
first `cap - 1` elements of the order list (all of them when there are fewer), and keeps the
map and the list linked. -/
theorem evictLoop_spec {cap : Int} (hcap : 1 ≤ cap) :
    ∀ (l : List (Element K V)) (m : List (K × Nat)), Linked m l →
      ∃ m', evictLoop cap m l.reverse = some (m', (l.take (cap.toNat - 1)).reverse) ∧
        Linked m' (l.take (cap.toNat - 1)) := by
  intro l
  induction l using List.reverseRecOn with
  | nil =>
    intro m h
    have hlen := h.length_eq
    simp only [List.length_nil] at hlen
    have hc : ¬ ((m.length : Int) ≥ cap) := by rw [hlen]; simp; omega
    refine ⟨m, ?_, by simpa using h⟩
    simp [evictLoop, hc]
  | append_singleton l e ih =>
    intro m h
    have hlen := h.length_eq
    simp only [List.length_append, List.length_singleton] at hlen
    by_cases hc : (m.length : Int) ≥ cap
    · obtain ⟨m', h1, h2⟩ := ih (mapDelete e.key m) h.dropLast
      have htake : (l ++ [e]).take (cap.toNat - 1) = l.take (cap.toNat - 1) := by
        apply List.take_append_of_le_length
        omega
      refine ⟨m', ?_, by rw [htake]; exact h2⟩
      rw [htake, List.reverse_append, List.reverse_singleton, List.singleton_append]
      simp only [evictLoop, hc, if_true]
      exact h1
    · have htake : (l ++ [e]).take (cap.toNat - 1) = l ++ [e] := by
        apply List.take_of_length_le
        simp only [List.length_append, List.length_singleton]
        omega
      refine ⟨m, ?_, by rw [htake]; exact h⟩
      rw [htake, List.reverse_append, List.reverse_singleton, List.singleton_append]
      simp only [evictLoop, hc, if_false]
theorem ControllerFrame.trans {a b c : LRUCache K V} (h1 : ControllerFrame a b)
    (h2 : ControllerFrame b c) : ControllerFrame a c := by
  obtain ⟨a1, a2, a3, a4, a5, a6, a7, a8, a9, a10, a11⟩ := h1
  obtain ⟨b1, b2, b3, b4, b5, b6, b7, b8, b9, b10, b11⟩ := h2
  exact ⟨b1.trans a1, b2.trans a2, b3.trans a3, b4.trans a4, b5.trans a5, b6.trans a6,
    b7.trans a7, b8.trans a8, b9.trans a9, b10.trans a10, b11.trans a11⟩

theorem classifyStep_frame (c : LRUCache K V) : ControllerFrame c (classifyStep c) := by
  unfold classifyStep; split_ifs <;> simp [ControllerFrame]

theorem directionalStep_frame (c : LRUCache K V) : ControllerFrame c (directionalStep c) := by
  unfold directionalStep; split_ifs <;> simp [ControllerFrame]

theorem dampingStep_frame (jp jv : Bool) (c : LRUCache K V) :
    ControllerFrame c (dampingStep jp jv c) := by
  unfold dampingStep; split_ifs <;> simp [ControllerFrame]

theorem clampMin_frame (c : LRUCache K V) : ControllerFrame c (clampMin c) := by
  unfold clampMin; split_ifs <;> simp [ControllerFrame]

theorem clampMax_frame (c : LRUCache K V) : ControllerFrame c (clampMax c) := by
  unfold clampMax; split_ifs <;> simp [ControllerFrame]

theorem emergencyStep_frame (c : LRUCache K V) : ControllerFrame c (emergencyStep c) := by
  unfold emergencyStep; split_ifs <;> simp [ControllerFrame]

/-- The controller touches neither the store, the counters nor the configuration. -/
theorem controllerStep_frame (c : LRUCache K V) : ControllerFrame c (controllerStep c) := by
  unfold controllerStep
  exact (((((classifyStep_frame c).trans (directionalStep_frame _)).trans
    (dampingStep_frame _ _ _)).trans (clampMin_frame _)).trans (clampMax_frame _)).trans
    (emergencyStep_frame _)

theorem controllerStep_cache (c : LRUCache K V) : (controllerStep c).cache = c.cache :=
  (controllerStep_frame c).1

theorem controllerStep_list (c : LRUCache K V) : (controllerStep c).list = c.list :=
  (controllerStep_frame c).2.1

theorem insertStep_TargetHitRate (c : LRUCache K V) (key : K) (value : V) :
    (insertStep c key value).TargetHitRate = c.TargetHitRate := by
  rw [insertStep_frame]

theorem Put_of_target_eq_zero {c : LRUCache K V} (key : K) (value : V)
    (h : c.TargetHitRate = 0) : Put c key value = some (insertStep c key value) := by
  simp [Put, insertStep_TargetHitRate, h]

theorem Put_of_target_ne_zero {c : LRUCache K V} (key : K) (value : V)
    (h : c.TargetHitRate ≠ 0) :
    Put c key value = evictStep (controllerStep (insertStep c key value)) := by
  simp [Put, insertStep_TargetHitRate, h]

theorem evictStep_eq_some {c c' : LRUCache K V} (h : evictStep c = some c') :
    c' = { c with cache := c'.cache, list := c'.list } ∧
      (c'.cache.length : Int) < IntCapacity c := by
  unfold evictStep at h
  cases hr : evictLoop (IntCapacity c) c.cache c.list.reverse with
  | none => simp [hr] at h
  | some r =>
    simp only [hr, Option.map_some', Option.some.injEq] at h
    subst h
    exact ⟨rfl, evictLoop_length_lt _ _ _ hr⟩

/-- Eviction on a state satisfying the store invariant, with an integer threshold of at least 1:
it returns, and keeps the first `IntCapacity - 1` elements of the order list. -/
theorem evictStep_spec {c : LRUCache K V} (hc : StoreInv c) (hcap : 1 ≤ IntCapacity c) :
    ∃ m', Linked m' (c.list.take ((IntCapacity c).toNat - 1)) ∧
      evictStep c = some { c with cache := m', list := c.list.take ((IntCapacity c).toNat - 1) } := by
  obtain ⟨m', h1, h2⟩ := evictLoop_spec hcap c.list c.cache hc
  refine ⟨m', h2, ?_⟩
  simp [evictStep, h1]

theorem truncToInt_of_lt {x : ℚ} (h0 : 0 ≤ x) (h : x < 2 ^ 63) : truncToInt x = ⌊x⌋ := by
  unfold truncToInt
  have h1 : ¬ (x.den = 1 ∧ (x < -2 ^ 63 ∨ 2 ^ 63 ≤ x)) := by
    rintro ⟨_, h2 | h2⟩
    · linarith
    · linarith
  rw [if_neg h1, if_pos h0]

theorem truncToInt_natCast (n : Nat) (h : n < 2 ^ 63) : truncToInt (n : ℚ) = n := by
  rw [truncToInt_of_lt (Nat.cast_nonneg n) (by exact_mod_cast h)]
  simp

/-- Where the conversion gives at least 1 it is the truncation of a value of at least 1. -/
theorem truncToInt_of_one_le {x : ℚ} (h : 1 ≤ truncToInt x) :
    truncToInt x = ⌊x⌋ ∧ 1 ≤ x := by
  unfold truncToInt at h ⊢
  by_cases h1 : x.den = 1 ∧ (x < -2 ^ 63 ∨ 2 ^ 63 ≤ x)
  · rw [if_pos h1] at h
    norm_num at h
  · rw [if_neg h1] at h ⊢
    by_cases h0 : 0 ≤ x
    · rw [if_pos h0] at h ⊢
      have hx : (1 : ℚ) ≤ x := by
        have := Int.le_floor.1 h
        simpa using this
      exact ⟨rfl, hx⟩
    · rw [if_neg h0] at h
      exfalso
      have : ⌈x⌉ ≤ 0 := Int.ceil_le.2 (by push_cast; linarith)
      omega

theorem take_pred_length {α : Type} (L : List α) (n : Nat) (h : n ≤ L.length) :
    (L.take (n - 1)).length = n - 1 := by
  rw [List.length_take]; omega
theorem find?_split {p : Nat} (l1 l2 : List (Element K V)) {e : Element K V}
    (h1 : ∀ x ∈ l1, x.ptr ≠ p) (he : e.ptr = p) :
    (l1 ++ e :: l2).find? (fun x => decide (x.ptr = p)) = some e := by
  induction l1 with
  | nil => simp [he]
  | cons a l1 ih =>
    have ha : a.ptr ≠ p := h1 a (List.mem_cons_self _ _)
    simp only [List.cons_append, List.find?_cons, ha, decide_False]
    exact ih (fun x hx => h1 x (List.mem_cons_of_mem _ hx))

/-- A hit: `Get` on the key of a list element returns its value, counts a hit and moves the
element to the front. -/
theorem Get_present [Inhabited V] {c : LRUCache K V} (l1 l2 : List (Element K V))
    {e : Element K V} (hc : StoreInv c) (hl : c.list = l1 ++ e :: l2) :
    Get c e.key = ((e.value, true), { c with hits := c.hits + 1, list := e :: (l1 ++ l2) }) := by
  have he : e ∈ c.list := by rw [hl]; simp
  obtain ⟨l1', l2', hl', hne, _⟩ := split_of_mem hc.2.1 hc.2.2.1 he
  have hlk : mapLookup e.key c.cache = some e.ptr :=
    mapLookup_of_mem (Linked.selfEq_of_mem hc he) hc.1 (hc.2.2.2.2.1 e he)
  have hp := hc.2.2.1
  rw [hl] at hp
  have hne1 : ∀ x ∈ l1, x.ptr ≠ e.ptr := by
    intro x hx hxe
    simp only [List.map_append, List.map_cons] at hp
    exact (List.nodup_append.1 hp).2.2 (List.mem_map_of_mem Element.ptr hx)
      (hxe ▸ List.mem_cons_self _ _)
  have hf := find?_split l1 l2 hne1 (rfl : e.ptr = e.ptr)
  have hmv := moveToFront_split l1 l2 hne1 (rfl : e.ptr = e.ptr)
  simp only [Get, hlk, hl, hf, hmv]

/-- A miss: `Get` on a key that the map does not bind returns the zero value and `false` and
counts a miss. -/
theorem Get_absent [Inhabited V] {c : LRUCache K V} {key : K}
    (h : key ∉ c.cache.map Prod.fst) :
    Get c key = ((default, false), { c with misses := c.misses + 1 }) := by
  simp only [Get, mapLookup_none_of_not_mem h]

theorem keys_cache_iff_list {c : LRUCache K V} (hc : StoreInv c) (k : K) :
    k ∈ c.cache.map Prod.fst ↔ k ∈ (entries c).map Prod.fst := by
  obtain ⟨_, _, _, h1, h2, _⟩ := hc
  simp only [entries, List.map_map, List.mem_map, Function.comp_def]
  constructor
  · rintro ⟨x, hx, rfl⟩
    obtain ⟨e, he, h3, _⟩ := h1 x hx
    exact ⟨e, he, h3⟩
  · rintro ⟨e, he, rfl⟩
    exact ⟨(e.key, e.ptr), h2 e he, rfl⟩

/-- `Put` on a state satisfying the store invariant, controller enabled, integer threshold of
the new capacity at least 1. -/
theorem Put_spec {c : LRUCache K V} (key : K) (value : V) (hc : StoreInv c)
    (hs : GoKey.selfEq key = true) (ht : c.TargetHitRate ≠ 0)
    (hcap : 1 ≤ IntCapacity (controllerStep (insertStep c key value))) :
    ∃ c', Put c key value = some c' ∧ StoreInv c' ∧
      c' = { controllerStep (insertStep c key value) with cache := c'.cache, list := c'.list } ∧
      entries c' = ((key, value) :: (entries c).filter (fun x => !keyEq x.1 key)).take
        ((IntCapacity (controllerStep (insertStep c key value))).toNat - 1) := by
  obtain ⟨hi, he⟩ := insertStep_spec key value hc hs
  have hs : StoreInv (controllerStep (insertStep c key value)) := by
    unfold StoreInv
    rw [controllerStep_cache, controllerStep_list]
    exact hi
  obtain ⟨m', h1, h2⟩ := evictStep_spec hs hcap
  refine ⟨_, (Put_of_target_ne_zero key value ht).trans h2, h1, rfl, ?_⟩
  simp only [entries, controllerStep_list] at he ⊢
  rw [← he, List.map_take]
theorem controllerStep_cache3 (m : List (Nat × Nat)) (l : List (Element Nat Nat)) :
    controllerStep { cache3 with cache := m, list := l } = { cache3 with cache := m, list := l } := by
  norm_num [controllerStep, emergencyStep, clampMax, clampMin, dampingStep, directionalStep,
    classifyStep, isPeak, isValley, justPeaked, justValleyed, HitRate, cache3, WithCapacity,
    NewLRUCache]

theorem intCapacity_cache3 (m : List (Nat × Nat)) (l : List (Element Nat Nat)) :
    IntCapacity { cache3 with cache := m, list := l } = 3 := by
  have : ((3 : ℚ)) = ((3 : Nat) : ℚ) := by norm_num
  simp only [IntCapacity, cache3, WithCapacity]
  rw [this, truncToInt_natCast 3 (by norm_num)]
  rfl

theorem Put_cache3 : Put cache3 1 10 = some cache3a := by
  have h : insertStep cache3 1 10 = { cache3 with cache := [(1, 1)], list := [⟨1, 1, 10⟩] } := by
    rfl
  rw [Put_of_target_ne_zero _ _ (by norm_num [cache3, WithCapacity, NewLRUCache]), h,
    controllerStep_cache3, evictStep, intCapacity_cache3]
  rfl

theorem Put_cache3a : Put cache3a 2 20 = some cache3b := by
  have h : insertStep cache3a 2 20 =
      { cache3 with cache := [(2, 2), (1, 1)], list := [⟨2, 2, 20⟩, ⟨1, 1, 10⟩] } := by
    rfl
  rw [Put_of_target_ne_zero _ _ (by norm_num [cache3a, cache3, WithCapacity, NewLRUCache]), h,
    controllerStep_cache3, evictStep, intCapacity_cache3]
  rfl

theorem Put_cache3b : Put cache3b 3 30 = some cache3c := by
  have h : insertStep cache3b 3 30 =
      { cache3 with cache := [(3, 3), (2, 2), (1, 1)],
                    list := [⟨3, 3, 30⟩, ⟨2, 2, 20⟩, ⟨1, 1, 10⟩] } := by
    rfl
  rw [Put_of_target_ne_zero _ _ (by norm_num [cache3b, cache3, WithCapacity, NewLRUCache]), h,
    controllerStep_cache3, evictStep, intCapacity_cache3]
  rfl
theorem Put_returns_imp {c c' : LRUCache K V} {key : K} {value : V}
    (ht : c.TargetHitRate ≠ 0) (h : Put c key value = some c') :
    c' = { controllerStep (insertStep c key value) with cache := c'.cache, list := c'.list } ∧
      (c'.cache.length : Int) < IntCapacity c' ∧
      IntCapacity c' = IntCapacity (controllerStep (insertStep c key value)) := by
  rw [Put_of_target_ne_zero key value ht] at h
  obtain ⟨h1, h2⟩ := evictStep_eq_some h
  have h3 : IntCapacity c' = IntCapacity (controllerStep (insertStep c key value)) := by
    rw [h1]; rfl
  exact ⟨h1, h3 ▸ h2, h3⟩

theorem Put_storeInv {c c' : LRUCache K V} {key : K} {value : V} (hc : StoreInv c)
    (hs : GoKey.selfEq key = true) (h : Put c key value = some c') : StoreInv c' := by
  by_cases ht : c.TargetHitRate = 0
  · rw [Put_of_target_eq_zero key value ht, Option.some.injEq] at h
    exact h ▸ (insertStep_spec key value hc hs).1
  · obtain ⟨_, h2, h3⟩ := Put_returns_imp ht h
    have hcap : 1 ≤ IntCapacity (controllerStep (insertStep c key value)) := by
      rw [← h3]
      have : (0 : Int) ≤ (c'.cache.length : Int) := Int.natCast_nonneg _
      omega
    obtain ⟨c'', h4, h5, _⟩ := Put_spec key value hc hs ht hcap
    rw [h] at h4
    cases h4
    exact h5

/-- C1 (as stated): a cache with `TargetHitRate = 0` and capacity 1 holds one entry after one
`Put`, which is not strictly less than `IntCapacity() = 1`. -/
theorem Put_resident_not_lt_when_static :
    ∃ c' : LRUCache Nat Nat,
      Put { (NewLRUCache : LRUCache Nat Nat) with TargetHitRate := 0 } 1 10 = some c' ∧
      c'.cache.length = 1 ∧ c'.list.length = 1 ∧ IntCapacity c' = 1 ∧
      ¬ ((c'.cache.length : Int) < IntCapacity c') := by
  have hI : IntCapacity (insertStep { (NewLRUCache : LRUCache Nat Nat) with TargetHitRate := 0 } 1 10)
      = 1 := by
    have h1 : IntCapacity
        (insertStep { (NewLRUCache : LRUCache Nat Nat) with TargetHitRate := 0 } 1 10) =
        truncToInt 1 := rfl
    rw [h1]
    decide!
  refine ⟨_, Put_of_target_eq_zero 1 10 rfl, rfl, rfl, hI, ?_⟩
  rw [hI]
  decide

theorem length_le_mapDelete {key : K} {m : List (K × Nat)} (hm : (m.map Prod.fst).Nodup) :
    m.length ≤ (mapDelete key m).length + 1 := by
  induction m with
  | nil => simp [mapDelete]
  | cons x m ih =>
    simp only [List.map_cons, List.nodup_cons] at hm
    cases hx : keyEq x.1 key
    · have : mapDelete key (x :: m) = x :: mapDelete key m := by
        simp [mapDelete, hx]
      rw [this]
      simp only [List.length_cons]
      exact Nat.succ_le_succ (ih hm.2)
    · have hk : key ∉ m.map Prod.fst := (keyEq_iff.1 hx).1 ▸ hm.1
      have : mapDelete key (x :: m) = m := by
        have h1 := mapDelete_of_not_mem hk
        unfold mapDelete at h1 ⊢
        simp [hx, h1]
      rw [this]
      simp

/-- The loop keeps the order list no longer than the map. -/
theorem evictLoop_list_le {cap : Int} :
    ∀ (r : List (Element K V)) (m : List (K × Nat)) (res : List (K × Nat) × List (Element K V)),
      (m.map Prod.fst).Nodup → r.length ≤ m.length → evictLoop cap m r = some res →
      res.2.length ≤ res.1.length := by
  intro r
  induction r with
  | nil =>
    intro m res _ _ h
    by_cases hc : (m.length : Int) ≥ cap
    · simp [evictLoop, hc] at h
    · simp only [evictLoop, hc, if_false, Option.some.injEq] at h
      subst h
      simp
  | cons e r ih =>
    intro m res hm hl h
    by_cases hc : (m.length : Int) ≥ cap
    · simp only [evictLoop, hc, if_true] at h
      have h1 : m.length ≤ (mapDelete e.key m).length + 1 := length_le_mapDelete hm
      simp only [List.length_cons] at hl
      exact ih _ _ (nodup_keys_mapDelete hm) (by omega) h
    · simp only [evictLoop, hc, if_false, Option.some.injEq] at h
      subst h
      exact hl

/-- After the insertion on a store satisfying the invariant, whatever the key, the map has one
binding per key and as many bindings as the order list has elements. -/
theorem insertStep_lengths {c : LRUCache K V} (key : K) (value : V) (hc : StoreInv c) :
    ((insertStep c key value).cache.map Prod.fst).Nodup ∧
    (insertStep c key value).list.length = (insertStep c key value).cache.length := by
  by_cases hs : GoKey.selfEq key = true
  · have h := (insertStep_spec key value hc hs).1
    exact ⟨h.1, h.length_eq.symm⟩
  · rw [insertStep_absent value (mapLookup_none_of_not_selfEq hs)]
    refine ⟨?_, ?_⟩
    · simp only [List.map_cons, List.nodup_cons]
      refine ⟨?_, hc.1⟩
      intro hmem
      obtain ⟨x, hx, hxk⟩ := List.mem_map.1 hmem
      exact hs (hxk ▸ hc.2.2.2.2.2 x hx)
    · simp only [List.length_cons]
      rw [hc.length_eq]

/-- C1 (amended): for every cache satisfying the store invariant whose `TargetHitRate` is not
0, after every `Put` that returns (whatever the key) the number of resident entries (bindings
of the map, elements of the order list) is strictly less than `IntCapacity()`. -/
theorem Put_resident_lt_intCapacity (c c' : LRUCache K V) (key : K) (value : V)
    (hc : StoreInv c) (ht : c.TargetHitRate ≠ 0) (h : Put c key value = some c') :
    (c'.cache.length : Int) < IntCapacity c' ∧ (c'.list.length : Int) < IntCapacity c' := by
  obtain ⟨_, h2, _⟩ := Put_returns_imp ht h
  refine ⟨h2, ?_⟩
  obtain ⟨hn, hl⟩ := insertStep_lengths key value hc
  rw [Put_of_target_ne_zero key value ht] at h
  unfold evictStep at h
  rw [controllerStep_cache, controllerStep_list] at h
  cases hr : evictLoop (IntCapacity (controllerStep (insertStep c key value)))
      (insertStep c key value).cache (insertStep c key value).list.reverse with
  | none => rw [hr] at h; simp at h
  | some res =>
    rw [hr, Option.map_some', Option.some.injEq] at h
    have hle := evictLoop_list_le _ _ _ hn (by rw [List.length_reverse, hl]) hr
    have h3 : c'.list.length ≤ c'.cache.length := by
      rw [← h]; simpa using hle
    omega

theorem cache3_target_ne_zero (m : List (Nat × Nat)) (l : List (Element Nat Nat)) :
    ({ cache3 with cache := m, list := l } : LRUCache Nat Nat).TargetHitRate ≠ 0 := by
  norm_num [cache3, WithCapacity, NewLRUCache]

/-- Witness of `Put_resident_lt_intCapacity`: `Put(3, 30)` on a capacity-3 cache holding two
entries. -/
theorem Put_resident_lt_intCapacity_witness :
    StoreInv cache3b ∧ cache3b.TargetHitRate ≠ 0 ∧ Put cache3b 3 30 = some cache3c ∧
    (cache3c.cache.length : Int) < IntCapacity cache3c ∧
    (cache3c.list.length : Int) < IntCapacity cache3c :=
  ⟨by decide, cache3_target_ne_zero _ _, Put_cache3b,
    Put_resident_lt_intCapacity cache3b cache3c 3 30 (by decide) (cache3_target_ne_zero _ _)
      Put_cache3b⟩
theorem mapLookup_isSome_iff {key : K} {m : List (K × Nat)} (hk : GoKey.selfEq key = true) :
    (mapLookup key m).isSome ↔ key ∈ m.map Prod.fst := by
  rw [← not_iff_not, ← mapLookup_eq_none hk]
  cases mapLookup key m <;> simp

/-- C2 (as stated): the empty store of `NewLRUCache()` satisfies the invariant and the capacity
after the controller is 1, but `Put(NaN, 0)` with a `float64` key does not return: the map
never deletes the NaN key, so the loop drains the list and panics.  And on
`NewLRUCache().WithCapacity(1e19)` the truncation of the capacity is at least 1, but
`int(1e19)` is the smallest `int64` and `Put(1, 10)` panics as well. -/
theorem Put_order_fails_for_nan_and_huge :
    StoreInv (NewLRUCache : LRUCache FloatKey Nat) ∧
    (NewLRUCache : LRUCache FloatKey Nat).TargetHitRate ≠ 0 ∧
    Capacity (controllerStep (insertStep (NewLRUCache : LRUCache FloatKey Nat) FloatKey.nan 0))
      = 1 ∧
    Put (NewLRUCache : LRUCache FloatKey Nat) FloatKey.nan 0 = none ∧
    StoreInv (WithCapacity (NewLRUCache : LRUCache Nat Nat) (10 ^ 19)) ∧
    (1 : Int) ≤ ⌊Capacity (controllerStep
      (insertStep (WithCapacity (NewLRUCache : LRUCache Nat Nat) (10 ^ 19)) 1 10))⌋ ∧
    Put (WithCapacity (NewLRUCache : LRUCache Nat Nat) (10 ^ 19)) 1 10 = none := by
  refine ⟨by decide, by decide!, by decide!, by decide!, by decide, by decide!, by decide!⟩

/-- C2 (amended): on a state satisfying the store invariant (no stored key differs from itself),
with `TargetHitRate ≠ 0`, a `Put(key, value)` of a key equal to itself whose resulting leading
capacity has `IntCapacity() ≥ 1` (Go's `int` conversion) returns; the order after it
is the first `min(|L|, trunc(c) - 1)` entries of `L = orderWith c key value`, the map binds
exactly the keys of those entries (and the store invariant holds again), and for an integral
capacity `n` exactly `n - 1` entries remain when `L` had at least `n`. -/
theorem Put_keeps_most_recent (c : LRUCache K V) (key : K) (value : V)
    (hc : StoreInv c) (hs : GoKey.selfEq key = true) (ht : c.TargetHitRate ≠ 0)
    (hcap : 1 ≤ IntCapacity (controllerStep (insertStep c key value))) :
    ∃ c', Put c key value = some c' ∧
      Capacity c' = Capacity (controllerStep (insertStep c key value)) ∧
      entries c' = (orderWith c key value).take ((IntCapacity c').toNat - 1) ∧
      (entries c').length = min (orderWith c key value).length ((IntCapacity c').toNat - 1) ∧
      StoreInv c' ∧
      (∀ k, (mapLookup k c'.cache).isSome ↔ k ∈ (entries c').map Prod.fst) ∧
      (∀ n : Nat, Capacity c' = (n : ℚ) → n ≤ (orderWith c key value).length →
        (entries c').length = n - 1) := by
  obtain ⟨c', h1, h2, h3, h4⟩ := Put_spec key value hc hs ht hcap
  have hI : IntCapacity c' = IntCapacity (controllerStep (insertStep c key value)) := by
    rw [h3]; rfl
  have hC : Capacity c' = Capacity (controllerStep (insertStep c key value)) := by
    rw [h3]; rfl
  have hE : entries c' = (orderWith c key value).take ((IntCapacity c').toNat - 1) := by
    rw [hI]; exact h4
  refine ⟨c', h1, hC, hE, ?_, h2, ?_, ?_⟩
  · rw [hE, List.length_take, Nat.min_comm]
  · intro k
    constructor
    · intro hk
      cases hl : mapLookup k c'.cache with
      | none => rw [hl] at hk; simp at hk
      | some p =>
        exact (keys_cache_iff_list h2 k).1 (List.mem_map_of_mem Prod.fst (mem_of_mapLookup hl))
    · intro hk
      have hmem := (keys_cache_iff_list h2 k).2 hk
      obtain ⟨x, hx, rfl⟩ := List.mem_map.1 hmem
      exact (mapLookup_isSome_iff (h2.2.2.2.2.2 x hx)).2 hmem
  · intro n hn hlen
    have hI : IntCapacity c' = ⌊(n : ℚ)⌋ := by
      have h5 := (truncToInt_of_one_le (hI ▸ hcap)).1
      unfold IntCapacity at h5 ⊢
      unfold Capacity at hn
      rw [hn] at h5
      rw [hn, h5]
    rw [hE, hI, Int.floor_natCast, Int.toNat_ofNat]
    exact take_pred_length _ _ hlen

/-- Witness of `Put_keeps_most_recent`: `Put(3, 30)` on a capacity-3 cache holding the keys 2
and 1 keeps `(3, 30)` and `(2, 20)`. -/
theorem Put_keeps_most_recent_witness :
    StoreInv cache3b ∧ GoKey.selfEq (3 : Nat) = true ∧ cache3b.TargetHitRate ≠ 0 ∧
    1 ≤ IntCapacity (controllerStep (insertStep cache3b 3 30)) ∧
    ∃ c', Put cache3b 3 30 = some c' ∧
      Capacity c' = Capacity (controllerStep (insertStep cache3b 3 30)) ∧
      entries c' = (orderWith cache3b 3 30).take ((IntCapacity c').toNat - 1) ∧
      (entries c').length = min (orderWith cache3b 3 30).length ((IntCapacity c').toNat - 1) ∧
      StoreInv c' ∧
      (∀ k, (mapLookup k c'.cache).isSome ↔ k ∈ (entries c').map Prod.fst) ∧
      (∀ n : Nat, Capacity c' = (n : ℚ) → n ≤ (orderWith cache3b 3 30).length →
        (entries c').length = n - 1) :=
  have hcap : 1 ≤ IntCapacity (controllerStep (insertStep cache3b 3 30)) := by
    have h : insertStep cache3b 3 30 =
        { cache3 with cache := [(3, 3), (2, 2), (1, 1)],
                      list := [⟨3, 3, 30⟩, ⟨2, 2, 20⟩, ⟨1, 1, 10⟩] } := rfl
    rw [h, controllerStep_cache3]
    have := intCapacity_cache3 [(3, 3), (2, 2), (1, 1)] [⟨3, 3, 30⟩, ⟨2, 2, 20⟩, ⟨1, 1, 10⟩]
    rw [this]
    decide
  ⟨by decide, rfl, cache3_target_ne_zero _ _, hcap,
    Put_keeps_most_recent cache3b 3 30 (by decide) rfl (cache3_target_ne_zero _ _) hcap⟩

/-- After a `Put` that left `(key, value)` at the front of a store satisfying the invariant,
`Get(key)` finds it. -/
theorem Get_of_head [Inhabited V] {c : LRUCache K V} {key : K} {value : V} {rest : List (K × V)}
    (hc : StoreInv c) (h : entries c = (key, value) :: rest) :
    (Get c key).1 = (value, true) := by
  cases hl : c.list with
  | nil => simp [entries, hl] at h
  | cons e l =>
    simp only [entries, hl, List.map_cons, List.cons.injEq, Prod.mk.injEq] at h
    have := Get_present [] l hc hl
    rw [h.1.1, h.1.2] at this
    rw [this]

/-- C3 (as stated): on `NewLRUCache[float64,int]().WithCapacity(3)`, `Put(NaN, 7)` returns with
`IntCapacity() = 3` and the entry is stored, but the following `Get(NaN)` returns `(0, false)`:
the map never finds a NaN key. -/
theorem Put_Get_fails_for_nan :
    (Put (WithCapacity (NewLRUCache : LRUCache FloatKey Nat) 3) FloatKey.nan 7).map
      (fun c => (IntCapacity c, entries c, (Get c FloatKey.nan).1)) =
      some (3, [(FloatKey.nan, 7)], (0, false)) := by
  decide!

/-- C3 (amended): `Put` followed by `Get` is a round trip for keys equal to themselves.  On a
state satisfying the store invariant (no stored key differs from itself), if `Put(key, value)`
with `key == key` returns with `TargetHitRate = 0` or with `IntCapacity() ≥ 2`, then `Get(key)`
on the resulting state returns `(value, true)`, whatever was bound to `key` before. -/
theorem Put_Get_roundtrip [Inhabited V] (c c' : LRUCache K V) (key : K) (value : V)
    (hc : StoreInv c) (hs : GoKey.selfEq key = true) (h : Put c key value = some c')
    (h2 : c.TargetHitRate = 0 ∨ 2 ≤ IntCapacity c') :
    (Get c' key).1 = (value, true) := by
  have hc' := Put_storeInv hc hs h
  by_cases ht : c.TargetHitRate = 0
  · rw [Put_of_target_eq_zero key value ht, Option.some.injEq] at h
    subst h
    exact Get_of_head hc' (insertStep_spec key value hc hs).2
  · have h2' : 2 ≤ IntCapacity c' := h2.resolve_left ht
    obtain ⟨_, _, h3⟩ := Put_returns_imp ht h
    obtain ⟨c'', h4, _, _, h5⟩ := Put_spec key value hc hs ht (by rw [← h3]; omega)
    rw [h] at h4
    cases h4
    rw [← h3] at h5
    obtain ⟨n, hn⟩ : ∃ n, (IntCapacity c').toNat - 1 = n + 1 := ⟨(IntCapacity c').toNat - 2, by omega⟩
    rw [hn, List.take_succ_cons] at h5
    exact Get_of_head hc' h5
theorem Put_cache3b_overwrite : Put cache3b 1 99 = some cache3d := by
  have h : insertStep cache3b 1 99 =
      { cache3 with cache := [(2, 2), (1, 1)], list := [⟨1, 1, 99⟩, ⟨2, 2, 20⟩] } := by
    rfl
  rw [Put_of_target_ne_zero (c := cache3b) _ _ (cache3_target_ne_zero _ _), h,
    controllerStep_cache3, evictStep, intCapacity_cache3]
  rfl

/-- Witness of `Put_Get_roundtrip`: key 1, bound to 10, is overwritten with 99 and read back. -/
theorem Put_Get_roundtrip_witness :
    StoreInv cache3b ∧ GoKey.selfEq (1 : Nat) = true ∧ Put cache3b 1 99 = some cache3d ∧
    (cache3b.TargetHitRate = 0 ∨ 2 ≤ IntCapacity cache3d) ∧
    (Get cache3d 1).1 = (99, true) :=
  have h2 : cache3b.TargetHitRate = 0 ∨ 2 ≤ IntCapacity cache3d :=
    Or.inr (by rw [cache3d, intCapacity_cache3]; decide)
  ⟨by decide, rfl, Put_cache3b_overwrite, h2,
    Put_Get_roundtrip cache3b cache3d 1 99 (by decide) rfl Put_cache3b_overwrite h2⟩

/-- C4 (as stated): after `Put(NaN, 7)` on `NewLRUCache[float64,int]().WithCapacity(3)` the
entry `(NaN, 7)` is stored, but `Get(NaN)` returns `(0, false)`, adds 1 to `misses` and leaves
`hits`: the key is present in the order list and `Get` treats it as absent. -/
theorem Get_misses_stored_nan :
    (Put (WithCapacity (NewLRUCache : LRUCache FloatKey Nat) 3) FloatKey.nan 7).map
      (fun c => (entries c, (Get c FloatKey.nan).1, (Get c FloatKey.nan).2.hits - c.hits,
        (Get c FloatKey.nan).2.misses - c.misses)) =
      some ([(FloatKey.nan, 7)], (0, false), 0, 1) := by
  decide!

/-- C4 (amended): `Get(key)` on a state satisfying the store invariant (no stored key differs
from itself), for every key.  If no entry has the key, it
returns the zero value and `false`, adds 1 to `misses` and changes nothing else.  If the entry
`(key, value)` is stored, it returns `(value, true)`, adds 1 to `hits`, and changes only the
order list besides: the entry comes first, followed by the other entries in their previous
relative order, so all bindings are kept, the map is the same and the store invariant holds.
In both cases the capacity window, `CapacityVeloc`, `lastPeak`, `lastValley` and the
configuration are those of the state before. -/
theorem Get_spec [Inhabited V] (c : LRUCache K V) (key : K) (hc : StoreInv c) :
    (key ∉ (entries c).map Prod.fst →
      Get c key = ((default, false), { c with misses := c.misses + 1 })) ∧
    (∀ value, (key, value) ∈ entries c →
      (Get c key).1 = (value, true) ∧
      (Get c key).2 = { c with hits := c.hits + 1, list := (Get c key).2.list } ∧
      entries (Get c key).2 = (key, value) :: (entries c).filter (fun x => !keyEq x.1 key) ∧
      StoreInv (Get c key).2) := by
  constructor
  · intro h
    exact Get_absent (fun hk => h ((keys_cache_iff_list hc key).1 hk))
  · intro value hv
    obtain ⟨e, he, hev⟩ := List.mem_map.1 hv
    simp only [Prod.mk.injEq] at hev
    obtain ⟨l1, l2, hl, _, hnk⟩ := split_of_mem hc.2.1 hc.2.2.1 he
    have hg := Get_present l1 l2 hc hl
    rw [hev.1, hev.2] at hg
    rw [hg]
    refine ⟨rfl, rfl, ?_, ?_⟩
    · simp only [entries, hl, List.map_cons, List.map_append, List.filter_append,
        List.filter_cons]
      rw [hev.1] at hnk
      rw [filter_key_ne_of_forall (fun x hx => hnk x (List.mem_append_left _ hx)),
        filter_key_ne_of_forall (fun x hx => hnk x (List.mem_append_right _ hx))]
      have hs : GoKey.selfEq key = true := hev.1 ▸ Linked.selfEq_of_mem hc he
      simp [hev.1, hev.2, (keyEq_of_selfEq hs).2 rfl]
    · have hc' : Linked c.cache (l1 ++ e :: l2) := hl ▸ hc
      refine Linked.of_perm hc' ?_
      simp only [List.map_cons, List.map_append]
      exact List.perm_middle.symm

/-- Witness of `Get_spec`: on the store `[(2, 20), (1, 10)]`, key 7 is a miss and key 1 a
hit. -/
theorem Get_spec_witness :
    StoreInv cache3b ∧ 7 ∉ (entries cache3b).map Prod.fst ∧ (1, 10) ∈ entries cache3b ∧
    Get cache3b 7 = ((default, false), { cache3b with misses := cache3b.misses + 1 }) ∧
    ((Get cache3b 1).1 = (10, true) ∧
      (Get cache3b 1).2 =
        { cache3b with hits := cache3b.hits + 1, list := (Get cache3b 1).2.list } ∧
      entries (Get cache3b 1).2 =
        (1, 10) :: (entries cache3b).filter (fun x => !keyEq x.1 1) ∧
      StoreInv (Get cache3b 1).2) :=
  ⟨by decide, by decide, by decide, (Get_spec cache3b 7 (by decide)).1 (by decide),
    (Get_spec cache3b 1 (by decide)).2 10 (by decide)⟩
theorem Get_frame [Inhabited V] (c : LRUCache K V) (key : K) :
    (Get c key).2 =
      { c with hits := (Get c key).2.hits, misses := (Get c key).2.misses,
               list := (Get c key).2.list } := by
  unfold Get
  cases mapLookup key c.cache <;> rfl

theorem Get_counters [Inhabited V] (c : LRUCache K V) (key : K) :
    ((Get c key).2.hits = c.hits + 1 ∧ (Get c key).2.misses = c.misses) ∨
    ((Get c key).2.hits = c.hits ∧ (Get c key).2.misses = c.misses + 1) := by
  unfold Get
  cases mapLookup key c.cache
  · exact Or.inr ⟨rfl, rfl⟩
  · exact Or.inl ⟨rfl, rfl⟩

theorem Put_counters {c c' : LRUCache K V} {key : K} {value : V}
    (h : Put c key value = some c') : c'.hits = c.hits ∧ c'.misses = c.misses := by
  have hi : (insertStep c key value).hits = c.hits ∧ (insertStep c key value).misses = c.misses := by
    rw [insertStep_frame]; exact ⟨rfl, rfl⟩
  by_cases ht : c.TargetHitRate = 0
  · rw [Put_of_target_eq_zero key value ht, Option.some.injEq] at h
    exact h ▸ hi
  · obtain ⟨h1, _, _⟩ := Put_returns_imp ht h
    have hf := controllerStep_frame (insertStep c key value)
    rw [h1]
    exact ⟨hf.2.2.1.trans hi.1, hf.2.2.2.1.trans hi.2⟩

/-- C6: with `TargetHitRate = 0`, every sequence of `Put` and `Get` calls returns, and
`Capacity()`, the three window slots, `CapacityVeloc`, `lastPeak` and `lastValley` are what they
were before the sequence. -/
theorem optOut_freezes_controller [Inhabited V] (c : LRUCache K V) (ops : List (Op K V))
    (ht : c.TargetHitRate = 0) :
    ∃ c', run c ops = some c' ∧ Capacity c' = Capacity c ∧
      c'.capacities0 = c.capacities0 ∧ c'.capacities1 = c.capacities1 ∧
      c'.capacities2 = c.capacities2 ∧ c'.CapacityVeloc = c.CapacityVeloc ∧
      c'.lastPeak = c.lastPeak ∧ c'.lastValley = c.lastValley := by
  induction ops generalizing c with
  | nil => exact ⟨c, rfl, rfl, rfl, rfl, rfl, rfl, rfl, rfl⟩
  | cons op ops ih =>
    cases op with
    | put key value =>
      have hs : step c (Op.put key value) = some (insertStep c key value) :=
        Put_of_target_eq_zero key value ht
      have hf := insertStep_frame c key value
      obtain ⟨c', h1, h2⟩ := ih (insertStep c key value) (by rw [hf]; exact ht)
      refine ⟨c', by simp only [run, hs, Option.some_bind]; exact h1, ?_⟩
      rw [hf] at h2
      exact h2
    | get key =>
      have hf := Get_frame c key
      obtain ⟨c', h1, h2⟩ := ih (Get c key).2 (by rw [hf]; exact ht)
      refine ⟨c', by simp only [run, step, Option.some_bind]; exact h1, ?_⟩
      rw [hf] at h2
      exact h2

/-- Witness of `optOut_freezes_controller`: a capacity-1 cache with `TargetHitRate = 0` and the
calls `Put(1, 10)`, `Get(1)`, `Put(2, 20)`, `Get(5)`. -/
theorem optOut_freezes_controller_witness :
    (configure (NewLRUCache : LRUCache Nat Nat) (1 / 10) (1 / 1000) 0 1 0 (9 / 10) (9 / 10)
      (1 / 10)).TargetHitRate = 0 ∧
    ∃ c', run (configure (NewLRUCache : LRUCache Nat Nat) (1 / 10) (1 / 1000) 0 1 0 (9 / 10)
        (9 / 10) (1 / 10)) [Op.put 1 10, Op.get 1, Op.put 2 20, Op.get 5] = some c' ∧
      Capacity c' = Capacity (configure (NewLRUCache : LRUCache Nat Nat) (1 / 10) (1 / 1000) 0 1 0
        (9 / 10) (9 / 10) (1 / 10)) ∧
      c'.capacities0 = 1 ∧ c'.capacities1 = 1 ∧ c'.capacities2 = 1 ∧
      c'.CapacityVeloc = 1 / 10 ∧ c'.lastPeak = 0 ∧ c'.lastValley = 0 :=
  ⟨rfl, optOut_freezes_controller _ _ rfl⟩

theorem Reachable.counters [Inhabited V] {c : LRUCache K V} (h : Reachable c) :
    1 ≤ c.hits ∧ 1 ≤ c.misses := by
  induction h with
  | new => exact ⟨le_refl _, le_refl _⟩
  | withCapacity capacity _ ih => exact ih
  | configure a b t lo hi d th em _ ih => exact ih
  | put key value _ hp ih =>
    obtain ⟨h1, h2⟩ := Put_counters hp
    rw [h1, h2]; exact ih
  | get key _ ih =>
    rename_i c0 _
    rcases Get_counters c0 key with ⟨h1, h2⟩ | ⟨h1, h2⟩ <;> rw [h1, h2] <;> omega

/-- C10: in every reachable state `hits ≥ 1` and `misses ≥ 1`; a `Put` that returns leaves both
counters as they were and a `Get` adds exactly 1 to exactly one of them, so neither decreases;
the denominator of `HitRate() = hits / (hits + misses)` is not zero, the hit rate lies strictly
between 0 and 1, and it is 1/2 on a new cache. -/
theorem counters_and_hitRate [Inhabited V] (c : LRUCache K V) (hr : Reachable c) :
    1 ≤ Hits c ∧ 1 ≤ Misses c ∧
    (∀ key value c', Put c key value = some c' → Hits c' = Hits c ∧ Misses c' = Misses c) ∧
    (∀ key, (Hits (Get c key).2 = Hits c + 1 ∧ Misses (Get c key).2 = Misses c) ∨
      (Hits (Get c key).2 = Hits c ∧ Misses (Get c key).2 = Misses c + 1)) ∧
    HitRate c = (Hits c : ℚ) / ((Hits c : ℚ) + (Misses c : ℚ)) ∧
    (Hits c : ℚ) + (Misses c : ℚ) ≠ 0 ∧
    0 < HitRate c ∧ HitRate c < 1 ∧
    HitRate (NewLRUCache : LRUCache K V) = 1 / 2 := by
  obtain ⟨h1, h2⟩ := hr.counters
  have q1 : (1 : ℚ) ≤ (c.hits : ℚ) := by exact_mod_cast h1
  have q2 : (1 : ℚ) ≤ (c.misses : ℚ) := by exact_mod_cast h2
  have hH : HitRate c = (c.hits : ℚ) / ((c.hits : ℚ) + (c.misses : ℚ)) := by
    unfold HitRate; push_cast; rfl
  have hpos : (0 : ℚ) < (c.hits : ℚ) + (c.misses : ℚ) := by linarith
  refine ⟨h1, h2, fun key value c' hp => Put_counters hp, fun key => Get_counters c key, hH,
    ne_of_gt hpos, ?_, ?_, ?_⟩
  · rw [hH]; exact div_pos (by linarith) hpos
  · rw [hH, div_lt_one hpos]; linarith
  · norm_num [HitRate, NewLRUCache]

/-- Witness of `counters_and_hitRate`: the cache `NewLRUCache().WithCapacity(3)`. -/
theorem counters_and_hitRate_witness :
    Reachable cache3 ∧ 1 ≤ Hits cache3 ∧ 1 ≤ Misses cache3 ∧
    0 < HitRate cache3 ∧ HitRate cache3 < 1 :=
  have hr : Reachable cache3 := Reachable.withCapacity 3 Reachable.new
  ⟨hr, (counters_and_hitRate cache3 hr).1, (counters_and_hitRate cache3 hr).2.1,
    (counters_and_hitRate cache3 hr).2.2.2.2.2.2.1,
    (counters_and_hitRate cache3 hr).2.2.2.2.2.2.2.1⟩
theorem run_reachable [Inhabited V] {c c' : LRUCache K V} (ops : List (Op K V))
    (hr : Reachable c) (h : run c ops = some c') : Reachable c' := by
  induction ops generalizing c with
  | nil =>
    simp only [run, Option.some.injEq] at h
    exact h ▸ hr
  | cons op ops ih =>
    cases op with
    | put key value =>
      simp only [run, step] at h
      cases hp : Put c key value with
      | none => simp [hp] at h
      | some c1 =>
        rw [hp, Option.some_bind] at h
        exact ih (Reachable.put key value hr hp) h
    | get key =>
      simp only [run, step, Option.some_bind] at h
      exact ih (Reachable.get key hr) h

theorem unboundedCache_reachable : Reachable unboundedCache :=
  Reachable.withCapacity 2
    (Reachable.configure (1 / 2) (1 / 1000) (1 / 2) 0 0 (9 / 10) (9 / 10) (1 / 10) Reachable.new)

/-- C5 (failing input): on
`c := NewLRUCache(); c.MinCapacity = 0; c.CapacityVeloc = 0.5; c.WithCapacity(2)`, the calls
`Put(1, 10)`, `Get(1)`, `Put(2, 20)`, `Put(3, 30)` all return and leave a reachable state of
capacity 1 with an empty store; the next `Put(4, 40)` panics: the capacity drops to 0.5,
`int(0.5) = 0`, and the loop removes the back of an empty list. -/
theorem Put_panics_on_reachable_state :
    ∃ c : LRUCache Nat Nat, run unboundedCache shrinkingCalls = some c ∧ Reachable c ∧
      Capacity c = 1 ∧ c.list = [] ∧ Put c 4 40 = none := by
  have h : (run unboundedCache shrinkingCalls).isSome = true := by decide!
  obtain ⟨c, hc⟩ := Option.isSome_iff_exists.1 h
  have h1 : (run unboundedCache shrinkingCalls).map Capacity = some 1 := by decide!
  have h2 : (run unboundedCache shrinkingCalls).map (fun c => c.list) = some [] := by decide!
  have h3 : (run unboundedCache shrinkingCalls).bind (fun c => Put c 4 40) = none := by decide!
  rw [hc] at h1 h2 h3
  simp only [Option.map_some', Option.some.injEq, Option.some_bind] at h1 h2 h3
  exact ⟨c, hc, run_reachable _ unboundedCache_reachable hc, h1, h2, h3⟩
/-- With `TargetHitRate = 0`, `Put`s of distinct keys that are not yet stored all return and
pile the entries up in front, evicting nothing. -/
theorem putAll_of_target_eq_zero [LawfulKey K] (kvs : List (K × V)) :
    ∀ c : LRUCache K V, StoreInv c → c.TargetHitRate = 0 → (kvs.map Prod.fst).Nodup →
      (∀ k ∈ kvs.map Prod.fst, k ∉ (entries c).map Prod.fst) →
      ∃ c', putAll c kvs = some c' ∧ StoreInv c' ∧ entries c' = kvs.reverse ++ entries c ∧
        c' = { c with cache := c'.cache, list := c'.list } := by
  induction kvs with
  | nil =>
    intro c hc _ _ _
    exact ⟨c, rfl, hc, by simp, rfl⟩
  | cons kv kvs ih =>
    intro c hc ht hn hd
    obtain ⟨k, v⟩ := kv
    simp only [List.map_cons, List.nodup_cons] at hn
    obtain ⟨hi, he⟩ := insertStep_spec k v hc (LawfulKey.selfEq_true k)
    have hk : k ∉ (entries c).map Prod.fst := hd k (by simp)
    have hfil : (entries c).filter (fun x => !keyEq x.1 k) = entries c := by
      rw [List.filter_eq_self]
      intro x hx
      have hne : x.1 ≠ k := fun e => hk (e ▸ List.mem_map_of_mem Prod.fst hx)
      cases hh : keyEq x.1 k
      · rfl
      · exact absurd (keyEq_iff.1 hh).1 hne
    rw [hfil] at he
    obtain ⟨c', h1, h2, h3, h4⟩ := ih (insertStep c k v) hi
      (by rw [insertStep_TargetHitRate]; exact ht) hn.2
      (by
        intro k' hk' hmem
        rw [he] at hmem
        simp only [List.map_cons, List.mem_cons] at hmem
        rcases hmem with rfl | hmem
        · exact hn.1 hk'
        · exact hd k' (by simp only [List.map_cons]; exact List.mem_cons_of_mem _ hk') hmem)
    refine ⟨c', ?_, h2, ?_, ?_⟩
    · simp only [putAll, Put_of_target_eq_zero k v ht, Option.some_bind]
      exact h1
    · rw [h3, he]
      simp
    · refine h4.trans ?_
      rw [insertStep_frame c k v]

theorem staticCache_storeInv (capacity : ℚ) : StoreInv (staticCache capacity : LRUCache K V) := by
  simp [StoreInv, Linked, staticCache, WithCapacity, NewLRUCache]

/-- C7 (as stated): on a new cache with `TargetHitRate = 0` and `WithCapacity(5)`, after `Put`
of the keys 1, ..., 10 all ten entries are resident, not five. -/
theorem static_capacity_scenario_keeps_all :
    (putAll (staticCache 5 : LRUCache Nat Nat)
      [(1, 0), (2, 0), (3, 0), (4, 0), (5, 0), (6, 0), (7, 0), (8, 0), (9, 0), (10, 0)]).map
      (fun c => ((entries c).map Prod.fst, c.cache.length)) =
      some ([10, 9, 8, 7, 6, 5, 4, 3, 2, 1], 10) ∧
    (putAll (staticCache 5 : LRUCache Nat Nat)
      [(1, 0), (2, 0), (3, 0), (4, 0), (5, 0), (6, 0), (7, 0), (8, 0), (9, 0), (10, 0)]).map
      (fun c => (entries c).map Prod.fst) ≠ some [10, 9, 8, 7, 6] := by
  constructor <;> decide!

/-- C7 (amended): on a new cache with `TargetHitRate = 0` and `WithCapacity(5)`, the `Put`s of
10 distinct keys `k1, ..., k10` in that order all return, all 10 entries are resident, and the
order from most to least recently used is `k10, ..., k1`: nothing is evicted. -/
theorem static_capacity_scenario [LawfulKey K] (kvs : List (K × V))
    (hn : (kvs.map Prod.fst).Nodup)
    (hlen : kvs.length = 10) :
    ∃ c', putAll (staticCache 5 : LRUCache K V) kvs = some c' ∧
      entries c' = kvs.reverse ∧ (entries c').length = 10 ∧ c'.cache.length = 10 ∧
      Capacity c' = 5 := by
  obtain ⟨c', h1, h2, h3, h4⟩ := putAll_of_target_eq_zero kvs (staticCache 5) (staticCache_storeInv 5)
    rfl hn (by simp [entries, staticCache, WithCapacity, NewLRUCache])
  have he : entries c' = kvs.reverse := by
    rw [h3]; simp [entries, staticCache, WithCapacity, NewLRUCache]
  have hl : (entries c').length = 10 := by rw [he, List.length_reverse, hlen]
  refine ⟨c', h1, he, hl, ?_, ?_⟩
  · rw [h2.length_eq, ← hl]; simp [entries]
  · rw [h4]; rfl

/-- Witness of `static_capacity_scenario`: the keys 1, ..., 10. -/
theorem static_capacity_scenario_witness :
    ∃ c', putAll (staticCache 5 : LRUCache Nat Nat)
        [(1, 0), (2, 0), (3, 0), (4, 0), (5, 0), (6, 0), (7, 0), (8, 0), (9, 0), (10, 0)] =
        some c' ∧
      entries c' =
        [(1, 0), (2, 0), (3, 0), (4, 0), (5, 0), (6, 0), (7, 0), (8, 0), (9, 0), (10, 0)].reverse ∧
      (entries c').length = 10 ∧ c'.cache.length = 10 ∧ Capacity c' = 5 :=
  static_capacity_scenario
    [(1, 0), (2, 0), (3, 0), (4, 0), (5, 0), (6, 0), (7, 0), (8, 0), (9, 0), (10, 0)]
    (by decide) (by decide)
/-- On a cache with the default configuration, `hits = misses = 1`, a flat window at a capacity
of at least 1 and no recorded peak or valley, the controller changes nothing: the hit rate
equals the target. -/
theorem controllerStep_default {x : ℚ} (hx : 1 ≤ x) (m : List (K × Nat))
    (l : List (Element K V)) :
    controllerStep { (WithCapacity NewLRUCache x : LRUCache K V) with cache := m, list := l } =
      { (WithCapacity NewLRUCache x : LRUCache K V) with cache := m, list := l } := by
  have hx' : ¬ x < 1 := not_lt.2 hx
  norm_num [controllerStep, emergencyStep, clampMax, clampMin, dampingStep, directionalStep,
    classifyStep, isPeak, isValley, justPeaked, justValleyed, HitRate, WithCapacity,
    NewLRUCache, hx']

theorem default_target_ne_zero (x : ℚ) (m : List (K × Nat)) (l : List (Element K V)) :
    ({ (WithCapacity NewLRUCache x : LRUCache K V) with cache := m, list := l }).TargetHitRate
      ≠ 0 := by
  norm_num [WithCapacity, NewLRUCache]

/-- `Put` on such a cache, the store invariant holding: it returns a cache of the same kind. -/
theorem Put_default [LawfulKey K] {x : ℚ} (hx : 1 ≤ x) (hx2 : x < 2 ^ 63)
    (m : List (K × Nat)) (l : List (Element K V)) (key : K) (value : V) (hc : Linked m l) :
    ∃ m' l', Linked m' l' ∧
      Put { (WithCapacity NewLRUCache x : LRUCache K V) with cache := m, list := l } key value =
        some { (WithCapacity NewLRUCache x : LRUCache K V) with cache := m', list := l' } ∧
      l'.map (fun e => (e.key, e.value)) =
        (orderWith { (WithCapacity NewLRUCache x : LRUCache K V) with cache := m, list := l }
          key value).take ((truncToInt x).toNat - 1) := by
  have hi := insertStep_frame
    { (WithCapacity NewLRUCache x : LRUCache K V) with cache := m, list := l } key value
  have hcs := controllerStep_default hx
    (insertStep { (WithCapacity NewLRUCache x : LRUCache K V) with cache := m, list := l }
      key value).cache
    (insertStep { (WithCapacity NewLRUCache x : LRUCache K V) with cache := m, list := l }
      key value).list
  have hcs' : controllerStep (insertStep
      { (WithCapacity NewLRUCache x : LRUCache K V) with cache := m, list := l } key value) =
      insertStep { (WithCapacity NewLRUCache x : LRUCache K V) with cache := m, list := l }
        key value := by
    rw [hi]; exact hcs
  have hcap : 1 ≤ truncToInt x := by
    rw [truncToInt_of_lt (by linarith) hx2]
    exact Int.le_floor.2 (by exact_mod_cast hx)
  obtain ⟨c', h1, h2, h3, h4⟩ := Put_spec (c :=
    { (WithCapacity NewLRUCache x : LRUCache K V) with cache := m, list := l }) key value hc
    (LawfulKey.selfEq_true key) (default_target_ne_zero x m l) (by rw [hcs', hi]; exact hcap)
  refine ⟨c'.cache, c'.list, h2, ?_, ?_⟩
  · rw [h1]
    congr 1
    rw [h3, hcs', hi]
  · rw [hcs', hi] at h4
    exact h4

theorem putAll_default [LawfulKey K] {x : ℚ} (hx : 1 ≤ x) (hx2 : x < 2 ^ 63)
    (kvs : List (K × V)) :
    ∀ (m : List (K × Nat)) (l : List (Element K V)), Linked m l →
      ∃ m' l', Linked m' l' ∧
        putAll { (WithCapacity NewLRUCache x : LRUCache K V) with cache := m, list := l } kvs =
          some { (WithCapacity NewLRUCache x : LRUCache K V) with cache := m', list := l' } := by
  induction kvs with
  | nil => intro m l h; exact ⟨m, l, h, rfl⟩
  | cons kv kvs ih =>
    intro m l h
    obtain ⟨m1, l1, h1, h2, _⟩ := Put_default hx hx2 m l kv.1 kv.2 h
    obtain ⟨m2, l2, h3, h4⟩ := ih m1 l1 h1
    refine ⟨m2, l2, h3, ?_⟩
    simp only [putAll, h2, Option.some_bind]
    exact h4

/-- C8 (as stated): on `NewLRUCache().WithCapacity(10)` the first `Put` leaves the capacity at
10, not at 10.1. -/
theorem growth_scenario_first_put :
    (Put (WithCapacity (NewLRUCache : LRUCache Nat Nat) 10) 1 0).map Capacity = some 10 ∧
    (Put (WithCapacity (NewLRUCache : LRUCache Nat Nat) 10) 1 0).map Capacity ≠
      some (10 + 1 / 10 * 1) := by
  constructor <;> decide!

/-- C8 (amended): on `NewLRUCache().WithCapacity(10)` with the default configuration, when keys
(9 distinct ones in particular) are `Put` with no `Get` call in between, every `Put` returns and
`Capacity()` after the `i`-th `Put` equals 10 for every `i`: `hits = misses = 1`, so the hit
rate is 1/2, equal to the target, and no directional step is taken. -/
theorem growth_scenario_capacity_constant [LawfulKey K] (kvs : List (K × V)) (i : Nat) :
    ∃ c', putAll (WithCapacity NewLRUCache 10 : LRUCache K V) (kvs.take i) = some c' ∧
      Capacity c' = 10 ∧ HitRate c' = c'.TargetHitRate := by
  obtain ⟨m', l', _, h⟩ := putAll_default (x := 10) (by norm_num) (by norm_num) (kvs.take i)
    ([] : List (K × Nat)) ([] : List (Element K V))
    (by simp [Linked])
  refine ⟨_, h, rfl, ?_⟩
  norm_num [HitRate, WithCapacity, NewLRUCache]
/-- Witness of `growth_scenario_capacity_constant`: the keys 1, ..., 9, all nine `Put`s. -/
theorem growth_scenario_capacity_constant_witness :
    ∃ c', putAll (WithCapacity NewLRUCache 10 : LRUCache Nat Nat)
        ([(1, 0), (2, 0), (3, 0), (4, 0), (5, 0), (6, 0), (7, 0), (8, 0), (9, 0)].take 9) =
        some c' ∧
      Capacity c' = 10 ∧ HitRate c' = c'.TargetHitRate :=
  growth_scenario_capacity_constant
    [(1, 0), (2, 0), (3, 0), (4, 0), (5, 0), (6, 0), (7, 0), (8, 0), (9, 0)] 9

theorem truncToInt_of_nonintegral {x : ℚ} (hgt : 1 < x) (hni : ∀ n : Int, x ≠ (n : ℚ)) :
    1 ≤ truncToInt x ∧ ⌈x⌉ = truncToInt x + 1 := by
  have h0 : (0 : ℚ) ≤ x := by linarith
  have hden : ¬ (x.den = 1 ∧ (x < -2 ^ 63 ∨ 2 ^ 63 ≤ x)) := by
    rintro ⟨hd, _⟩
    exact hni x.num (Rat.coe_int_num_of_den_eq_one hd).symm
  have ht : truncToInt x = ⌊x⌋ := by unfold truncToInt; rw [if_neg hden, if_pos h0]
  rw [ht]
  refine ⟨Int.le_floor.2 (by exact_mod_cast hgt.le), ?_⟩
  rw [Int.ceil_eq_iff]
  constructor
  · have h1 : ((⌊x⌋ : Int) : ℚ) ≤ x := Int.floor_le x
    have h2 : ((⌊x⌋ : Int) : ℚ) ≠ x := fun h => hni ⌊x⌋ h.symm
    have h3 : ((⌊x⌋ : Int) : ℚ) < x := lt_of_le_of_ne h1 h2
    push_cast
    linarith
  · push_cast
    exact (Int.lt_floor_add_one x).le

/-- C9 (as stated): `Put(2, 20)` on a cache of capacity 2.5 holding one entry ends with the
capacity 2.5; two entries, that is `ceil(2.5) - 1`, were present after the insertion step, and
one is resident afterwards, not two. -/
theorem nonintegral_capacity_keeps_one :
    cacheHalf.TargetHitRate ≠ 0 ∧
    (Put cacheHalf 2 20).map Capacity = some (5 / 2) ∧
    ((insertStep cacheHalf 2 20).list.length : Int) = ⌈(5 / 2 : ℚ)⌉ - 1 ∧
    (Put cacheHalf 2 20).map (fun c => (entries c, c.cache.length)) = some ([(2, 20)], 1) ∧
    (Put cacheHalf 2 20).map (fun c => ((entries c).length : Int)) ≠
      some (⌈(5 / 2 : ℚ)⌉ - 1) := by
  have hceil : ⌈(5 / 2 : ℚ)⌉ = 3 := by
    rw [Int.ceil_eq_iff]; norm_num
  rw [hceil]
  refine ⟨by decide!, by decide!, by decide!, by decide!, by decide!⟩

/-- C9 (amended): a `Put` with `TargetHitRate ≠ 0`, on a state satisfying the store invariant,
that ends with a non-integral leading capacity `c > 1` returns, and the effective maximum
resident count is `trunc(c) - 1 = ceil(c) - 2`: the number of resident entries after the `Put`
never exceeds `ceil(c) - 2`, and it equals `ceil(c) - 2` whenever at least that many entries
were present after the insertion step. -/
theorem Put_max_resident_nonintegral [LawfulKey K] (c : LRUCache K V) (key : K) (value : V)
    (hc : StoreInv c) (ht : c.TargetHitRate ≠ 0)
    (hgt : 1 < Capacity (controllerStep (insertStep c key value)))
    (hni : ∀ n : Int, Capacity (controllerStep (insertStep c key value)) ≠ (n : ℚ)) :
    ∃ c', Put c key value = some c' ∧
      Capacity c' = Capacity (controllerStep (insertStep c key value)) ∧
      (c'.cache.length : Int) = ((entries c').length : Int) ∧
      ((entries c').length : Int) ≤ ⌈Capacity c'⌉ - 2 ∧
      (⌈Capacity c'⌉ - 2 ≤ ((insertStep c key value).list.length : Int) →
        ((entries c').length : Int) = ⌈Capacity c'⌉ - 2) := by
  obtain ⟨h1, h2⟩ := truncToInt_of_nonintegral hgt hni
  obtain ⟨c', h3, h4, h5, h6⟩ := Put_spec key value hc (LawfulKey.selfEq_true key) ht h1
  have hC : Capacity c' = Capacity (controllerStep (insertStep c key value)) := by
    rw [h5]; rfl
  have hL : (orderWith c key value).length = (insertStep c key value).list.length := by
    have := (insertStep_spec key value hc (LawfulKey.selfEq_true key)).2
    unfold orderWith
    rw [← this]
    simp [entries]
  change entries c' = (orderWith c key value).take _ at h6
  refine ⟨c', h3, hC, ?_, ?_, ?_⟩
  · rw [h4.length_eq]; simp [entries]
  · rw [h6, hC, List.length_take, h2]
    unfold IntCapacity Capacity at *
    omega
  · intro hlen
    rw [hC] at hlen
    rw [h6, hC, List.length_take, hL, h2]
    rw [h2] at hlen
    unfold IntCapacity Capacity at *
    omega

/-- Witness of `Put_max_resident_nonintegral`: `Put(2, 20)` on a cache of capacity 2.5 holding
one entry leaves `ceil(2.5) - 2 = 1` entry. -/
theorem Put_max_resident_nonintegral_witness :
    StoreInv cacheHalf ∧ cacheHalf.TargetHitRate ≠ 0 ∧
    1 < Capacity (controllerStep (insertStep cacheHalf 2 20)) ∧
    (∀ n : Int, Capacity (controllerStep (insertStep cacheHalf 2 20)) ≠ (n : ℚ)) ∧
    ∃ c', Put cacheHalf 2 20 = some c' ∧
      Capacity c' = Capacity (controllerStep (insertStep cacheHalf 2 20)) ∧
      (c'.cache.length : Int) = ((entries c').length : Int) ∧
      ((entries c').length : Int) ≤ ⌈Capacity c'⌉ - 2 ∧
      (⌈Capacity c'⌉ - 2 ≤ ((insertStep cacheHalf 2 20).list.length : Int) →
        ((entries c').length : Int) = ⌈Capacity c'⌉ - 2) :=
  have hcap : Capacity (controllerStep (insertStep cacheHalf 2 20)) = 5 / 2 := by decide!
  have hgt : 1 < Capacity (controllerStep (insertStep cacheHalf 2 20)) := by
    rw [hcap]; norm_num
  have hni : ∀ n : Int, Capacity (controllerStep (insertStep cacheHalf 2 20)) ≠ (n : ℚ) := by
    intro n h
    rw [hcap] at h
    have h1 : (5 : ℚ) = ((2 * n : Int) : ℚ) := by push_cast; linarith
    have h2 : (5 : Int) = 2 * n := by exact_mod_cast h1
    omega
  ⟨by decide, by decide!, hgt, hni,
    Put_max_resident_nonintegral cacheHalf 2 20 (by decide) (by decide!) hgt hni⟩
theorem Get_storeInv [Inhabited V] {c : LRUCache K V} (key : K) (hc : StoreInv c) :
    StoreInv (Get c key).2 := by
  by_cases hk : key ∈ (entries c).map Prod.fst
  · obtain ⟨kv, hkv, rfl⟩ := List.mem_map.1 hk
    obtain ⟨e, he, rfl⟩ := List.mem_map.1 hkv
    obtain ⟨l1, l2, hl, _, _⟩ := split_of_mem hc.2.1 hc.2.2.1 he
    have hg := Get_present l1 l2 hc hl
    simp only at hg ⊢
    rw [hg]
    have hc' : Linked c.cache (l1 ++ e :: l2) := hl ▸ hc
    refine Linked.of_perm hc' ?_
    simp only [List.map_cons, List.map_append]
    exact List.perm_middle.symm
  · rw [Get_absent (fun h => hk ((keys_cache_iff_list hc key).1 h))]
    exact hc

/-- Every state reached by putting only keys equal to themselves satisfies the store
invariant. -/
theorem CleanReachable.storeInv [Inhabited V] {c : LRUCache K V} (h : CleanReachable c) :
    StoreInv c := by
  induction h with
  | new => simp [StoreInv, Linked, NewLRUCache]
  | withCapacity capacity _ ih => exact ih
  | configure a b t lo hi d th em _ ih => exact ih
  | put key value _ hs hp ih => exact Put_storeInv ih hs hp
  | get key _ ih => exact Get_storeInv key ih
theorem classifyStep_withStore (c : LRUCache K V) (m : List (K × Nat)) (l : List (Element K V)) :
    classifyStep { c with cache := m, list := l } =
      { classifyStep c with cache := m, list := l } := by
  unfold classifyStep isPeak isValley
  dsimp only
  split_ifs <;> rfl

theorem directionalStep_withStore (c : LRUCache K V) (m : List (K × Nat))
    (l : List (Element K V)) :
    directionalStep { c with cache := m, list := l } =
      { directionalStep c with cache := m, list := l } := by
  unfold directionalStep HitRate
  dsimp only
  split_ifs <;> rfl

theorem dampingStep_withStore (jp jv : Bool) (c : LRUCache K V) (m : List (K × Nat))
    (l : List (Element K V)) :
    dampingStep jp jv { c with cache := m, list := l } =
      { dampingStep jp jv c with cache := m, list := l } := by
  unfold dampingStep
  dsimp only
  split_ifs <;> rfl

theorem clampMin_withStore (c : LRUCache K V) (m : List (K × Nat)) (l : List (Element K V)) :
    clampMin { c with cache := m, list := l } = { clampMin c with cache := m, list := l } := by
  unfold clampMin
  dsimp only
  split_ifs <;> rfl

theorem clampMax_withStore (c : LRUCache K V) (m : List (K × Nat)) (l : List (Element K V)) :
    clampMax { c with cache := m, list := l } = { clampMax c with cache := m, list := l } := by
  unfold clampMax
  dsimp only
  split_ifs <;> rfl

theorem emergencyStep_withStore (c : LRUCache K V) (m : List (K × Nat))
    (l : List (Element K V)) :
    emergencyStep { c with cache := m, list := l } =
      { emergencyStep c with cache := m, list := l } := by
  unfold emergencyStep HitRate
  dsimp only
  split_ifs <;> rfl

/-- The controller does not read the store: it commutes with any change of `cache` and
`list`. -/
theorem controllerStep_withStore (c : LRUCache K V) (m : List (K × Nat))
    (l : List (Element K V)) :
    controllerStep { c with cache := m, list := l } =
      { controllerStep c with cache := m, list := l } := by
  unfold controllerStep
  have hp : justPeaked { c with cache := m, list := l } = justPeaked c := rfl
  have hv : justValleyed { c with cache := m, list := l } = justValleyed c := rfl
  rw [hp, hv, classifyStep_withStore, directionalStep_withStore, dampingStep_withStore,
    clampMin_withStore, clampMax_withStore, emergencyStep_withStore]

theorem controllerStep_insertStep (c : LRUCache K V) (key : K) (value : V) :
    controllerStep (insertStep c key value) =
      { controllerStep c with cache := (insertStep c key value).cache,
                              list := (insertStep c key value).list } := by
  rw [← controllerStep_withStore, ← insertStep_frame]

theorem classifyStep_insertStep (c : LRUCache K V) (key : K) (value : V) :
    classifyStep (insertStep c key value) =
      { classifyStep c with cache := (insertStep c key value).cache,
                            list := (insertStep c key value).list } := by
  rw [← classifyStep_withStore, ← insertStep_frame]

/-- A `Put` that returns with `TargetHitRate ≠ 0` leaves the controller fields computed by
`controllerStep` from the state before the call. -/
theorem Put_eq_controller {c c' : LRUCache K V} {key : K} {value : V}
    (ht : c.TargetHitRate ≠ 0) (h : Put c key value = some c') :
    c' = { controllerStep c with cache := c'.cache, list := c'.list } := by
  obtain ⟨h1, _, _⟩ := Put_returns_imp ht h
  refine h1.trans ?_
  rw [controllerStep_insertStep]
/-- C11 (as stated): on `NewLRUCache[float64,int]().WithCapacity(3)` the calls `Put(NaN, 0)`,
`Put(1, 1)`, `Put(2, 2)` all return and leave a reachable state whose order list holds the key 2
only while the map binds 2 and NaN: the key sets and the sizes differ. -/
theorem store_invariant_fails_with_nan :
    ∃ c : LRUCache FloatKey Nat, Reachable c ∧
      c.list.map Element.key = [FloatKey.num 2] ∧
      c.cache.map Prod.fst = [FloatKey.num 2, FloatKey.nan] ∧
      c.cache.length ≠ c.list.length := by
  have h : (run (WithCapacity (NewLRUCache : LRUCache FloatKey Nat) 3)
      [Op.put FloatKey.nan 0, Op.put (FloatKey.num 1) 1, Op.put (FloatKey.num 2) 2]).isSome =
      true := by decide!
  obtain ⟨c, hc⟩ := Option.isSome_iff_exists.1 h
  have h1 : (run (WithCapacity (NewLRUCache : LRUCache FloatKey Nat) 3)
      [Op.put FloatKey.nan 0, Op.put (FloatKey.num 1) 1, Op.put (FloatKey.num 2) 2]).map
      (fun c => (c.list.map Element.key, c.cache.map Prod.fst)) =
      some ([FloatKey.num 2], [FloatKey.num 2, FloatKey.nan]) := by decide!
  rw [hc] at h1
  simp only [Option.map_some', Option.some.injEq, Prod.mk.injEq] at h1
  refine ⟨c, run_reachable _ (Reachable.withCapacity 3 Reachable.new) hc, h1.1, h1.2, ?_⟩
  have e1 := congrArg List.length h1.1
  have e2 := congrArg List.length h1.2
  simp only [List.length_map, List.length_cons, List.length_nil] at e1 e2
  omega

/-- C11 (amended): in every state reachable from `NewLRUCache()` by `WithCapacity`,
configuration writes, `Get`, and `Put` calls that return and whose key is equal to itself
(`key == key`, no NaN), the map and the order list hold the same keys, every key (and every
element) occurs once in the order list, the map binds a key to the list element that holds it,
and `|index| = |order|`. -/
theorem store_invariant_reachable [Inhabited V] (c : LRUCache K V) (hr : CleanReachable c) :
    (∀ k, k ∈ c.cache.map Prod.fst ↔ k ∈ c.list.map Element.key) ∧
    (c.list.map Element.key).Nodup ∧ (c.list.map Element.ptr).Nodup ∧
    (c.cache.map Prod.fst).Nodup ∧
    (∀ k p, mapLookup k c.cache = some p → ∃ e ∈ c.list, e.ptr = p ∧ e.key = k) ∧
    (∀ e ∈ c.list, mapLookup e.key c.cache = some e.ptr) ∧
    c.cache.length = c.list.length := by
  have hc := hr.storeInv
  obtain ⟨hm, hk, hp, h1, h2, h6⟩ := hc
  refine ⟨?_, hk, hp, hm, ?_, ?_, Linked.length_eq ⟨hm, hk, hp, h1, h2, h6⟩⟩
  · intro k
    have := keys_cache_iff_list ⟨hm, hk, hp, h1, h2, h6⟩ k
    simpa [entries, List.map_map, Function.comp_def] using this
  · intro k p hkp
    obtain ⟨e, he, h3, h4⟩ := h1 _ (mem_of_mapLookup hkp)
    exact ⟨e, he, h4, h3⟩
  · intro e he
    exact mapLookup_of_mem (h6 _ (h2 e he)) hm (h2 e he)

theorem cache3b_reachable : Reachable cache3b :=
  Reachable.put 2 20
    (Reachable.put 1 10 (Reachable.withCapacity 3 Reachable.new) Put_cache3) Put_cache3a

theorem cache3b_cleanReachable : CleanReachable cache3b :=
  CleanReachable.put 2 20
    (CleanReachable.put 1 10 (CleanReachable.withCapacity 3 CleanReachable.new) rfl Put_cache3)
    rfl Put_cache3a

/-- Witness of `store_invariant_reachable`: the capacity-3 cache after `Put(1, 10)` and
`Put(2, 20)`. -/
theorem store_invariant_reachable_witness :
    CleanReachable cache3b ∧
    (∀ k, k ∈ cache3b.cache.map Prod.fst ↔ k ∈ cache3b.list.map Element.key) ∧
    (cache3b.list.map Element.key).Nodup ∧ (cache3b.list.map Element.ptr).Nodup ∧
    (cache3b.cache.map Prod.fst).Nodup ∧
    (∀ k p, mapLookup k cache3b.cache = some p → ∃ e ∈ cache3b.list, e.ptr = p ∧ e.key = k) ∧
    (∀ e ∈ cache3b.list, mapLookup e.key cache3b.cache = some e.ptr) ∧
    cache3b.cache.length = cache3b.list.length :=
  ⟨cache3b_cleanReachable, store_invariant_reachable cache3b cache3b_cleanReachable⟩
theorem clamp_capacities0 (d : LRUCache K V) :
    (clampMax (clampMin d)).capacities0 = clampToBounds d d.capacities0 := by
  unfold clampMax clampMin clampToBounds
  by_cases h1 : d.MinCapacity ≠ 0 ∧ d.capacities0 < d.MinCapacity
  · simp only [h1, and_self, if_true]
    split_ifs <;> rfl
  · simp only [h1, if_false]
    split_ifs <;> rfl

/-- The clamp changes the leading slot only. -/
theorem clamp_frame (d : LRUCache K V) :
    clampMax (clampMin d) = { d with capacities0 := (clampMax (clampMin d)).capacities0 } := by
  unfold clampMax clampMin
  split_ifs <;> rfl

theorem emergencyStep_eq (d : LRUCache K V) :
    emergencyStep d =
      { d with CapacityVeloc :=
          if d.CapacityVeloc < d.MinCapacityVeloc then
            if HitRate d < d.TargetHitRate * d.EmergencyThreshold then d.EmergencyCapacityVeloc
            else d.MinCapacityVeloc
          else d.CapacityVeloc } := by
  unfold emergencyStep
  split_ifs <;> rfl

theorem controllerStep_eq (c : LRUCache K V) :
    controllerStep c = emergencyStep (clampMax (clampMin (dampedState c))) := rfl

theorem dampedState_frame (c : LRUCache K V) : ControllerFrame c (dampedState c) := by
  unfold dampedState
  exact ((classifyStep_frame c).trans (directionalStep_frame _)).trans (dampingStep_frame _ _ _)

theorem HitRate_of_frame {c c' : LRUCache K V} (h : ControllerFrame c c') :
    HitRate c' = HitRate c := by
  unfold HitRate
  rw [h.2.2.1, h.2.2.2.1]

/-- The leading slot after the controller is the damped value clamped to the bounds; the two
lagging slots, the latch and the velocity are not touched by the clamp; the velocity is then
floored or reset by the emergency step. -/
theorem controllerStep_fields (c : LRUCache K V) :
    (controllerStep c).capacities0 = clampToBounds c (dampedState c).capacities0 ∧
    (controllerStep c).capacities1 = (dampedState c).capacities1 ∧
    (controllerStep c).capacities2 = (dampedState c).capacities2 ∧
    (controllerStep c).lastPeak = (dampedState c).lastPeak ∧
    (controllerStep c).lastValley = (dampedState c).lastValley ∧
    (controllerStep c).CapacityVeloc =
      (if (dampedState c).CapacityVeloc < c.MinCapacityVeloc then
        if HitRate c < c.TargetHitRate * c.EmergencyThreshold then c.EmergencyCapacityVeloc
        else c.MinCapacityVeloc
      else (dampedState c).CapacityVeloc) := by
  have hf := dampedState_frame c
  have hH : HitRate (dampedState c) = HitRate c := HitRate_of_frame hf
  have hcl := clamp_frame (dampedState c)
  have h0 := clamp_capacities0 (dampedState c)
  have hb : clampToBounds (dampedState c) (dampedState c).capacities0 =
      clampToBounds c (dampedState c).capacities0 := by
    unfold clampToBounds
    rw [hf.2.2.2.2.2.2.1, hf.2.2.2.2.2.2.2.1]
  rw [controllerStep_eq, emergencyStep_eq, hcl]
  refine ⟨h0.trans hb, rfl, rfl, rfl, rfl, ?_⟩
  show (if (dampedState c).CapacityVeloc < (dampedState c).MinCapacityVeloc then
      if HitRate { dampedState c with
          capacities0 := (clampMax (clampMin (dampedState c))).capacities0 } <
        (dampedState c).TargetHitRate * (dampedState c).EmergencyThreshold then
        (dampedState c).EmergencyCapacityVeloc
      else (dampedState c).MinCapacityVeloc
    else (dampedState c).CapacityVeloc) = _
  have hH' : HitRate { dampedState c with
      capacities0 := (clampMax (clampMin (dampedState c))).capacities0 } = HitRate c := hH
  rw [hH', hf.2.2.2.2.1, hf.2.2.2.2.2.1, hf.2.2.2.2.2.2.2.2.2.1, hf.2.2.2.2.2.2.2.2.2.2]
theorem classifyStep_eq (c : LRUCache K V) :
    classifyStep c =
      { c with
        lastPeak := if isPeak c then c.capacities1 else c.lastPeak
        lastValley := if justValleyed c then c.capacities1 else c.lastValley } := by
  unfold classifyStep justValleyed
  cases hp : isPeak c <;> cases hv : isValley c <;> simp

theorem directionalStep_eq (c : LRUCache K V) :
    directionalStep c =
      { c with
        capacities0 :=
          if HitRate c > c.TargetHitRate then c.capacities0 - c.CapacityVeloc
          else if HitRate c < c.TargetHitRate then c.capacities0 + c.CapacityVeloc
          else c.capacities0
        capacities1 :=
          if HitRate c > c.TargetHitRate ∨ HitRate c < c.TargetHitRate then c.capacities0
          else c.capacities1
        capacities2 :=
          if HitRate c > c.TargetHitRate ∨ HitRate c < c.TargetHitRate then c.capacities1
          else c.capacities2 } := by
  unfold directionalStep
  by_cases h1 : HitRate c > c.TargetHitRate
  · simp [h1]
  · by_cases h2 : HitRate c < c.TargetHitRate
    · simp [h1, h2]
    · simp [h1, h2]

/-- The state after classification and directional step, spelled out on the state before. -/
theorem directional_classify_eq (c : LRUCache K V) :
    directionalStep (classifyStep c) =
      { c with
        lastPeak := (classifyStep c).lastPeak
        lastValley := (classifyStep c).lastValley
        capacities0 :=
          if HitRate c > c.TargetHitRate then c.capacities0 - c.CapacityVeloc
          else if HitRate c < c.TargetHitRate then c.capacities0 + c.CapacityVeloc
          else c.capacities0
        capacities1 :=
          if HitRate c > c.TargetHitRate ∨ HitRate c < c.TargetHitRate then c.capacities0
          else c.capacities1
        capacities2 :=
          if HitRate c > c.TargetHitRate ∨ HitRate c < c.TargetHitRate then c.capacities1
          else c.capacities2 } := by
  rw [directionalStep_eq]
  have hH : HitRate (classifyStep c) = HitRate c := HitRate_of_frame (classifyStep_frame c)
  have hT : (classifyStep c).TargetHitRate = c.TargetHitRate := (classifyStep_frame c).2.2.2.2.2.1
  rw [hH, hT]
  rw [classifyStep_eq]

/-- Damping fires: the three slots are the midpoint, the velocity is multiplied by
`CapacityDecel`, and the half of the latch that was not just recorded is cleared. -/
theorem dampedState_of_resolved (c : LRUCache K V)
    (h : (classifyStep c).lastPeak ≠ 0 ∧ (classifyStep c).lastValley ≠ 0) :
    (dampedState c).capacities0 = ((classifyStep c).lastPeak + (classifyStep c).lastValley) / 2 ∧
    (dampedState c).capacities1 = ((classifyStep c).lastPeak + (classifyStep c).lastValley) / 2 ∧
    (dampedState c).capacities2 = ((classifyStep c).lastPeak + (classifyStep c).lastValley) / 2 ∧
    (dampedState c).CapacityVeloc = c.CapacityVeloc * c.CapacityDecel ∧
    (dampedState c).lastValley = (if justPeaked c then 0 else (classifyStep c).lastValley) ∧
    (dampedState c).lastPeak = (if justValleyed c then 0 else (classifyStep c).lastPeak) := by
  unfold dampedState
  rw [directional_classify_eq]
  unfold dampingStep
  rw [if_pos h]
  exact ⟨rfl, rfl, rfl, rfl, rfl, rfl⟩

/-- Damping does not fire: the state is the one left by the directional step. -/
theorem dampedState_of_not_resolved (c : LRUCache K V)
    (h : ¬ ((classifyStep c).lastPeak ≠ 0 ∧ (classifyStep c).lastValley ≠ 0)) :
    (dampedState c).capacities0 =
      (if HitRate c > c.TargetHitRate then c.capacities0 - c.CapacityVeloc
        else if HitRate c < c.TargetHitRate then c.capacities0 + c.CapacityVeloc
        else c.capacities0) ∧
    (dampedState c).capacities1 =
      (if HitRate c > c.TargetHitRate ∨ HitRate c < c.TargetHitRate then c.capacities0
        else c.capacities1) ∧
    (dampedState c).capacities2 =
      (if HitRate c > c.TargetHitRate ∨ HitRate c < c.TargetHitRate then c.capacities1
        else c.capacities2) ∧
    (dampedState c).CapacityVeloc = c.CapacityVeloc ∧
    (dampedState c).lastValley = (classifyStep c).lastValley ∧
    (dampedState c).lastPeak = (classifyStep c).lastPeak := by
  unfold dampedState
  rw [directional_classify_eq]
  unfold dampingStep
  rw [if_neg h]
  exact ⟨rfl, rfl, rfl, rfl, rfl, rfl⟩
theorem dampedState_withStore (c : LRUCache K V) (m : List (K × Nat)) (l : List (Element K V)) :
    dampedState { c with cache := m, list := l } = { dampedState c with cache := m, list := l } := by
  unfold dampedState
  have hp : justPeaked { c with cache := m, list := l } = justPeaked c := rfl
  have hv : justValleyed { c with cache := m, list := l } = justValleyed c := rfl
  rw [hp, hv, classifyStep_withStore, directionalStep_withStore, dampingStep_withStore]

theorem dampedState_insertStep (c : LRUCache K V) (key : K) (value : V) :
    dampedState (insertStep c key value) =
      { dampedState c with cache := (insertStep c key value).cache,
                           list := (insertStep c key value).list } := by
  rw [← dampedState_withStore, ← insertStep_frame]

/-- What a `Put` that returns with `TargetHitRate ≠ 0` leaves in the controller fields: the
values computed by `controllerStep` on the state left by the insertion. -/
theorem Put_controller_fields {c c' : LRUCache K V} {key : K} {value : V}
    (ht : c.TargetHitRate ≠ 0) (h : Put c key value = some c') :
    window c' = window (controllerStep (insertStep c key value)) ∧
    c'.CapacityVeloc = (controllerStep (insertStep c key value)).CapacityVeloc ∧
    c'.lastPeak = (controllerStep (insertStep c key value)).lastPeak ∧
    c'.lastValley = (controllerStep (insertStep c key value)).lastValley := by
  obtain ⟨h1, _, _⟩ := Put_returns_imp ht h
  rw [h1]
  exact ⟨rfl, rfl, rfl, rfl⟩

theorem clampToBounds_le_max (c : LRUCache K V) (x : ℚ) (h : c.MaxCapacity ≠ 0) :
    clampToBounds c x ≤ c.MaxCapacity := by
  unfold clampToBounds
  by_cases hB : c.MaxCapacity ≠ 0 ∧
      (if c.MinCapacity ≠ 0 ∧ x < c.MinCapacity then c.MinCapacity else x) > c.MaxCapacity
  · rw [if_pos hB]
  · rw [if_neg hB]
    exact not_lt.1 (fun hlt => hB ⟨h, hlt⟩)

theorem min_le_clampToBounds (c : LRUCache K V) (x : ℚ) (h : c.MinCapacity ≠ 0)
    (hb : c.MaxCapacity = 0 ∨ c.MinCapacity ≤ c.MaxCapacity) :
    c.MinCapacity ≤ clampToBounds c x := by
  unfold clampToBounds
  by_cases hB : c.MaxCapacity ≠ 0 ∧
      (if c.MinCapacity ≠ 0 ∧ x < c.MinCapacity then c.MinCapacity else x) > c.MaxCapacity
  · rw [if_pos hB]
    exact hb.resolve_left hB.1
  · rw [if_neg hB]
    by_cases hA : c.MinCapacity ≠ 0 ∧ x < c.MinCapacity
    · rw [if_pos hA]
    · rw [if_neg hA]
      exact not_lt.1 (fun hlt => hA ⟨h, hlt⟩)

theorem clampToBounds_of_within (c : LRUCache K V) (x : ℚ)
    (h1 : ¬ (c.MinCapacity ≠ 0 ∧ x < c.MinCapacity))
    (h2 : ¬ (c.MaxCapacity ≠ 0 ∧ x > c.MaxCapacity)) : clampToBounds c x = x := by
  unfold clampToBounds
  rw [if_neg h1, if_neg h2]

theorem controllerStep_insert_fields (c : LRUCache K V) (key : K) (value : V) :
    Capacity (controllerStep (insertStep c key value)) =
      clampToBounds c (dampedState (insertStep c key value)).capacities0 ∧
    (controllerStep (insertStep c key value)).capacities1 =
      (dampedState (insertStep c key value)).capacities1 ∧
    (controllerStep (insertStep c key value)).capacities2 =
      (dampedState (insertStep c key value)).capacities2 ∧
    (controllerStep (insertStep c key value)).lastPeak =
      (dampedState (insertStep c key value)).lastPeak ∧
    (controllerStep (insertStep c key value)).lastValley =
      (dampedState (insertStep c key value)).lastValley ∧
    (controllerStep (insertStep c key value)).CapacityVeloc =
      (if (dampedState (insertStep c key value)).CapacityVeloc < c.MinCapacityVeloc then
        if HitRate c < c.TargetHitRate * c.EmergencyThreshold then c.EmergencyCapacityVeloc
        else c.MinCapacityVeloc
      else (dampedState (insertStep c key value)).CapacityVeloc) := by
  have h := controllerStep_fields (insertStep c key value)
  have hf := insertStep_frame c key value
  have e1 : clampToBounds (insertStep c key value) = clampToBounds c := by
    rw [hf]; rfl
  have e2 : HitRate (insertStep c key value) = HitRate c := by rw [hf]; rfl
  have e3 : (insertStep c key value).MinCapacityVeloc = c.MinCapacityVeloc := by rw [hf]
  have e4 : (insertStep c key value).TargetHitRate = c.TargetHitRate := by rw [hf]
  have e5 : (insertStep c key value).EmergencyThreshold = c.EmergencyThreshold := by rw [hf]
  have e6 : (insertStep c key value).EmergencyCapacityVeloc = c.EmergencyCapacityVeloc := by
    rw [hf]
  rw [e1, e2, e3, e4, e5, e6] at h
  exact h

/-- C12: after every `Put` that returns with `TargetHitRate ≠ 0`: if `MaxCapacity ≠ 0` then
`Capacity() ≤ MaxCapacity`; if `MinCapacity ≠ 0` and (`MaxCapacity = 0` or
`MinCapacity ≤ MaxCapacity`) then `Capacity() ≥ MinCapacity`; and the clamp changes the leading
slot only: the two lagging slots are those left by the damping step. -/
theorem Put_capacity_within_bounds (c c' : LRUCache K V) (key : K) (value : V)
    (ht : c.TargetHitRate ≠ 0) (h : Put c key value = some c') :
    (c.MaxCapacity ≠ 0 → Capacity c' ≤ c.MaxCapacity) ∧
    (c.MinCapacity ≠ 0 → (c.MaxCapacity = 0 ∨ c.MinCapacity ≤ c.MaxCapacity) →
      c.MinCapacity ≤ Capacity c') ∧
    Capacity c' = clampToBounds c (dampedState (insertStep c key value)).capacities0 ∧
    c'.capacities1 = (dampedState (insertStep c key value)).capacities1 ∧
    c'.capacities2 = (dampedState (insertStep c key value)).capacities2 ∧
    clampMax (clampMin (dampedState (insertStep c key value))) =
      { dampedState (insertStep c key value) with capacities0 := Capacity c' } := by
  obtain ⟨hw, _, _, _⟩ := Put_controller_fields ht h
  obtain ⟨f0, f1, f2, _⟩ := controllerStep_insert_fields c key value
  simp only [window, Prod.mk.injEq] at hw
  have hC : Capacity c' = clampToBounds c (dampedState (insertStep c key value)).capacities0 :=
    hw.1.trans f0
  refine ⟨fun hmax => hC ▸ clampToBounds_le_max c _ hmax,
    fun hmin hb => hC ▸ min_le_clampToBounds c _ hmin hb, hC, hw.2.1.trans f1, hw.2.2.trans f2, ?_⟩
  have := clamp_frame (dampedState (insertStep c key value))
  rw [this]
  have h0 : (clampMax (clampMin (dampedState (insertStep c key value)))).capacities0 =
      Capacity c' := by
    have h1 := hw.1
    rw [controllerStep_eq, emergencyStep_eq] at h1
    exact h1.symm
  rw [h0]
theorem Put_boundedCache : Put boundedCache 1 10 = some boundedAfter := by decide!

theorem run_oscCalls : run cache3 oscCalls = some oscCache := by decide!

theorem Put_oscCache : Put oscCache 5 50 = some oscAfter := by decide!

/-- Witness of `Put_capacity_within_bounds`: with bounds 1 and 3, a `Put` after a miss would
grow the capacity 3 to 3.1 and leaves it at 3. -/
theorem Put_capacity_within_bounds_witness :
    boundedCache.TargetHitRate ≠ 0 ∧ Put boundedCache 1 10 = some boundedAfter ∧
    boundedCache.MaxCapacity ≠ 0 ∧ boundedCache.MinCapacity ≠ 0 ∧
    (boundedCache.MaxCapacity = 0 ∨ boundedCache.MinCapacity ≤ boundedCache.MaxCapacity) ∧
    (dampedState (insertStep boundedCache 1 10)).capacities0 = 31 / 10 ∧
    Capacity boundedAfter ≤ boundedCache.MaxCapacity ∧
    boundedCache.MinCapacity ≤ Capacity boundedAfter :=
  have ht : boundedCache.TargetHitRate ≠ 0 := by decide!
  have hmax : boundedCache.MaxCapacity ≠ 0 := by decide!
  have hmin : boundedCache.MinCapacity ≠ 0 := by decide!
  have hb : boundedCache.MaxCapacity = 0 ∨ boundedCache.MinCapacity ≤ boundedCache.MaxCapacity :=
    Or.inr (by decide!)
  ⟨ht, Put_boundedCache, hmax, hmin, hb, by decide!,
    (Put_capacity_within_bounds boundedCache boundedAfter 1 10 ht Put_boundedCache).1 hmax,
    (Put_capacity_within_bounds boundedCache boundedAfter 1 10 ht Put_boundedCache).2.1 hmin hb⟩

theorem evictLoop_none_of_lt_one {cap : Int} (hcap : cap < 1) :
    ∀ (r : List (Element K V)) (m : List (K × Nat)), evictLoop cap m r = none := by
  intro r
  induction r with
  | nil =>
    intro m
    have : (m.length : Int) ≥ cap := by
      have := Int.natCast_nonneg m.length
      omega
    simp [evictLoop, this]
  | cons e r ih =>
    intro m
    have : (m.length : Int) ≥ cap := by
      have := Int.natCast_nonneg m.length
      omega
    simp only [evictLoop, this, if_true]
    exact ih _

/-- With `TargetHitRate ≠ 0` and an integer capacity below 1 after the controller, `Put`
panics. -/
theorem Put_none_of_intCapacity_lt_one {c : LRUCache K V} (key : K) (value : V)
    (ht : c.TargetHitRate ≠ 0)
    (h : IntCapacity (controllerStep (insertStep c key value)) < 1) :
    Put c key value = none := by
  rw [Put_of_target_ne_zero key value ht]
  unfold evictStep
  rw [evictLoop_none_of_lt_one h]
  rfl

theorem Put_unboundedHit : Put unboundedHit 2 20 = some unboundedHitAfter := by decide!

theorem Put_slowCache : Put slowCache 5 50 = some slowAfter := by decide!
theorem insertStep_hitRate (c : LRUCache K V) (key : K) (value : V) :
    HitRate (insertStep c key value) = HitRate c := by
  rw [insertStep_frame]; rfl

/-- C13: with `MinCapacity = 0` and `MaxCapacity = 0`, for every state and every `Put` with
`TargetHitRate ≠ 0`, the leading slot set by the controller is exactly the value `x` left by
the directional step and the damping step: the peak/valley midpoint when both are recorded
after the classification, else the old capacity minus the velocity, plus the velocity, or
unchanged; the clamp changes nothing, whatever the value.  A `Put` that returns has the
capacity `x`; on a state satisfying the store invariant and for a key equal to itself `Put`
returns whenever `int(x) ≥ 1`; and when `int(x) < 1` (so for every `x` below 1 or negative)
the capacity is set all the same and `Put` then panics in its loop. -/
theorem Put_unclamped_without_bounds (c : LRUCache K V) (key : K) (value : V)
    (hmin : c.MinCapacity = 0) (hmax : c.MaxCapacity = 0) (ht : c.TargetHitRate ≠ 0) :
    Capacity (controllerStep (insertStep c key value)) =
      (dampedState (insertStep c key value)).capacities0 ∧
    clampMax (clampMin (dampedState (insertStep c key value))) =
      dampedState (insertStep c key value) ∧
    (dampedState (insertStep c key value)).capacities0 =
      (if (classifyStep (insertStep c key value)).lastPeak ≠ 0 ∧
          (classifyStep (insertStep c key value)).lastValley ≠ 0 then
        midpoint (classifyStep (insertStep c key value))
      else if HitRate c > c.TargetHitRate then c.capacities0 - c.CapacityVeloc
      else if HitRate c < c.TargetHitRate then c.capacities0 + c.CapacityVeloc
      else c.capacities0) ∧
    (∀ c', Put c key value = some c' →
      Capacity c' = (dampedState (insertStep c key value)).capacities0) ∧
    (StoreInv c → GoKey.selfEq key = true →
      1 ≤ truncToInt (dampedState (insertStep c key value)).capacities0 →
      ∃ c', Put c key value = some c' ∧
        Capacity c' = (dampedState (insertStep c key value)).capacities0) ∧
    (truncToInt (dampedState (insertStep c key value)).capacities0 < 1 →
      Put c key value = none) := by
  obtain ⟨f0, _⟩ := controllerStep_insert_fields c key value
  have hcl : ∀ x, clampToBounds c x = x := fun x =>
    clampToBounds_of_within c x (fun h => h.1 hmin) (fun h => h.1 hmax)
  rw [hcl] at f0
  have hf := insertStep_frame c key value
  have e0 : (insertStep c key value).capacities0 = c.capacities0 := by rw [hf]
  have e1 : (insertStep c key value).CapacityVeloc = c.CapacityVeloc := by rw [hf]
  have e2 : (insertStep c key value).TargetHitRate = c.TargetHitRate := by rw [hf]
  have e3 : HitRate (insertStep c key value) = HitRate c := insertStep_hitRate c key value
  have hI : IntCapacity (controllerStep (insertStep c key value)) =
      truncToInt (dampedState (insertStep c key value)).capacities0 := by
    unfold IntCapacity
    unfold Capacity at f0
    rw [f0]
  have hput : ∀ c', Put c key value = some c' →
      Capacity c' = (dampedState (insertStep c key value)).capacities0 := by
    intro c' h
    obtain ⟨hw, _⟩ := Put_controller_fields ht h
    simp only [window, Prod.mk.injEq] at hw
    exact hw.1.trans f0
  refine ⟨f0, ?_, ?_, hput, ?_, ?_⟩
  · have h1 := clamp_frame (dampedState (insertStep c key value))
    have h2 := clamp_capacities0 (dampedState (insertStep c key value))
    have h3 : clampToBounds (dampedState (insertStep c key value))
        (dampedState (insertStep c key value)).capacities0 =
        (dampedState (insertStep c key value)).capacities0 := by
      have hfr := dampedState_frame (insertStep c key value)
      apply clampToBounds_of_within
      · intro h; exact h.1 (by rw [hfr.2.2.2.2.2.2.1, hf]; exact hmin)
      · intro h; exact h.1 (by rw [hfr.2.2.2.2.2.2.2.1, hf]; exact hmax)
    rw [h1, h2, h3]
  · by_cases hres : (classifyStep (insertStep c key value)).lastPeak ≠ 0 ∧
        (classifyStep (insertStep c key value)).lastValley ≠ 0
    · rw [if_pos hres]
      exact (dampedState_of_resolved _ hres).1
    · rw [if_neg hres, (dampedState_of_not_resolved _ hres).1, e0, e1, e2, e3]
  · intro hc hs hcap
    obtain ⟨c', h1, _⟩ := Put_spec key value hc hs ht (hI ▸ hcap)
    exact ⟨c', h1, hput c' h1⟩
  · intro hlt
    exact Put_none_of_intCapacity_lt_one key value ht (hI ▸ hlt)

/-- Witness of `Put_unclamped_without_bounds`: on the unbounded cache of capacity 2 with hit
rate 2/3, `Put(2, 20)` returns with the capacity `2 - 0.5 = 1.5`; two `Put`s later the
controller sets 0.5 and `Put` panics. -/
theorem Put_unclamped_without_bounds_witness :
    unboundedHit.MinCapacity = 0 ∧ unboundedHit.MaxCapacity = 0 ∧
    unboundedHit.TargetHitRate ≠ 0 ∧
    Put unboundedHit 2 20 = some unboundedHitAfter ∧
    Capacity unboundedHitAfter = (dampedState (insertStep unboundedHit 2 20)).capacities0 ∧
    Capacity unboundedHitAfter = unboundedHit.capacities0 - unboundedHit.CapacityVeloc ∧
    (dampedState (insertStep unboundedLow 4 40)).capacities0 = 1 / 2 ∧
    Put unboundedLow 4 40 = none :=
  have ht : unboundedHit.TargetHitRate ≠ 0 := by decide!
  ⟨rfl, rfl, ht, Put_unboundedHit,
    (Put_unclamped_without_bounds unboundedHit 2 20 rfl rfl ht).2.2.2.1 unboundedHitAfter
      Put_unboundedHit,
    by decide!, by decide!,
    (Put_unclamped_without_bounds unboundedLow 4 40 rfl rfl (by decide!)).2.2.2.2.2
      (by decide!)⟩
/-- C14 (as stated): on the reachable state `oscCache` with `CapacityVeloc` written to 0.001,
`Put(5, 50)` resolves an oscillation with `CapacityDecel = 0.9`, and `CapacityVeloc` after the
`Put` is 0.1: neither 0.9 times 0.001 nor smaller than before, because the velocity 0.0009 left
by the damping is below `MinCapacityVeloc` and the emergency step replaces it. -/
theorem damping_velocity_reset_by_emergency :
    (run cache3 oscCalls).map
      (fun c => configure c (1 / 1000) (1 / 1000) (1 / 2) 1 0 (9 / 10) (9 / 10) (1 / 10)) =
      some slowCache ∧
    (classifyStep (insertStep slowCache 5 50)).lastPeak ≠ 0 ∧
    (classifyStep (insertStep slowCache 5 50)).lastValley ≠ 0 ∧
    0 < slowCache.CapacityDecel ∧ slowCache.CapacityDecel < 1 ∧
    slowCache.CapacityVeloc = 1 / 1000 ∧
    (Put slowCache 5 50).map (fun c => c.CapacityVeloc) = some (1 / 10) ∧
    (Put slowCache 5 50).map (fun c => c.CapacityVeloc) ≠
      some (slowCache.CapacityDecel * slowCache.CapacityVeloc) ∧
    (Put slowCache 5 50).map (fun c => decide (c.CapacityVeloc < slowCache.CapacityVeloc)) =
      some false := by
  refine ⟨by decide!, by decide!, by decide!, by decide!, by decide!, by decide!, by decide!,
    by decide!, by decide!⟩


/-- C14 (amended): in every `Put` in which an oscillation is resolved (`lastPeak` and
`lastValley` both non-zero after the classification), with `CapacityDecel < 1` (in particular
with `0 < CapacityDecel < 1`) and `CapacityVeloc > 0`, the velocity left by the damping step is
`CapacityDecel` times the velocity before the `Put`, strictly smaller than before.  When that
product is at least `MinCapacityVeloc` it is `CapacityVeloc` after the controller and after a
`Put` that returns; when it is below `MinCapacityVeloc` the emergency step replaces it, by
`EmergencyCapacityVeloc` if `HitRate() < TargetHitRate * EmergencyThreshold` and by
`MinCapacityVeloc` if not. -/
theorem damping_scales_velocity (c : LRUCache K V) (key : K) (value : V)
    (hres : (classifyStep (insertStep c key value)).lastPeak ≠ 0 ∧
      (classifyStep (insertStep c key value)).lastValley ≠ 0)
    (hd1 : c.CapacityDecel < 1) (hv : 0 < c.CapacityVeloc) :
    (dampedState (insertStep c key value)).CapacityVeloc = c.CapacityDecel * c.CapacityVeloc ∧
    c.CapacityDecel * c.CapacityVeloc < c.CapacityVeloc ∧
    (controllerStep (insertStep c key value)).CapacityVeloc =
      (if c.CapacityDecel * c.CapacityVeloc < c.MinCapacityVeloc then
        if HitRate c < c.TargetHitRate * c.EmergencyThreshold then c.EmergencyCapacityVeloc
        else c.MinCapacityVeloc
      else c.CapacityDecel * c.CapacityVeloc) ∧
    (∀ c', c.TargetHitRate ≠ 0 → Put c key value = some c' →
      (c.MinCapacityVeloc ≤ c.CapacityDecel * c.CapacityVeloc →
        c'.CapacityVeloc = c.CapacityDecel * c.CapacityVeloc ∧
        c'.CapacityVeloc < c.CapacityVeloc) ∧
      (c.CapacityDecel * c.CapacityVeloc < c.MinCapacityVeloc →
        HitRate c < c.TargetHitRate * c.EmergencyThreshold →
        c'.CapacityVeloc = c.EmergencyCapacityVeloc) ∧
      (c.CapacityDecel * c.CapacityVeloc < c.MinCapacityVeloc →
        ¬ HitRate c < c.TargetHitRate * c.EmergencyThreshold →
        c'.CapacityVeloc = c.MinCapacityVeloc)) := by
  have hf := insertStep_frame c key value
  have e1 : (insertStep c key value).CapacityVeloc = c.CapacityVeloc := by rw [hf]
  have e2 : (insertStep c key value).CapacityDecel = c.CapacityDecel := by rw [hf]
  have hd : (dampedState (insertStep c key value)).CapacityVeloc =
      c.CapacityDecel * c.CapacityVeloc := by
    rw [(dampedState_of_resolved _ hres).2.2.2.1, e1, e2, mul_comm]
  have hlt : c.CapacityDecel * c.CapacityVeloc < c.CapacityVeloc := by
    have := mul_lt_mul_of_pos_right hd1 hv
    rwa [one_mul] at this
  have hc : (controllerStep (insertStep c key value)).CapacityVeloc =
      (if c.CapacityDecel * c.CapacityVeloc < c.MinCapacityVeloc then
        if HitRate c < c.TargetHitRate * c.EmergencyThreshold then c.EmergencyCapacityVeloc
        else c.MinCapacityVeloc
      else c.CapacityDecel * c.CapacityVeloc) := by
    rw [(controllerStep_insert_fields c key value).2.2.2.2.2, hd]
  refine ⟨hd, hlt, hc, ?_⟩
  intro c' ht h
  obtain ⟨_, hvel, _⟩ := Put_controller_fields ht h
  rw [hvel, hc]
  refine ⟨?_, ?_, ?_⟩
  · intro hfloor
    rw [if_neg (not_lt.2 hfloor)]
    exact ⟨rfl, hlt⟩
  · intro h1 h2
    rw [if_pos h1, if_pos h2]
  · intro h1 h2
    rw [if_pos h1, if_neg h2]

/-- Witness of `damping_scales_velocity`: `Put(5, 50)` on `oscCache` resolves the oscillation
between the peak 3 and the valley 2.9 and takes the velocity from 0.1 to 0.09; on `slowCache`,
where the velocity is 0.001, the damped velocity 0.0009 is below the floor and the `Put` leaves
`EmergencyCapacityVeloc`. -/
theorem damping_scales_velocity_witness :
    ((classifyStep (insertStep oscCache 5 50)).lastPeak ≠ 0 ∧
      (classifyStep (insertStep oscCache 5 50)).lastValley ≠ 0) ∧
    oscCache.CapacityDecel < 1 ∧ 0 < oscCache.CapacityVeloc ∧
    oscCache.MinCapacityVeloc ≤ oscCache.CapacityDecel * oscCache.CapacityVeloc ∧
    oscCache.TargetHitRate ≠ 0 ∧ Put oscCache 5 50 = some oscAfter ∧
    (oscAfter.CapacityVeloc = oscCache.CapacityDecel * oscCache.CapacityVeloc ∧
      oscAfter.CapacityVeloc < oscCache.CapacityVeloc) ∧
    ((classifyStep (insertStep slowCache 5 50)).lastPeak ≠ 0 ∧
      (classifyStep (insertStep slowCache 5 50)).lastValley ≠ 0) ∧
    slowCache.CapacityDecel * slowCache.CapacityVeloc < slowCache.MinCapacityVeloc ∧
    HitRate slowCache < slowCache.TargetHitRate * slowCache.EmergencyThreshold ∧
    Put slowCache 5 50 = some slowAfter ∧
    slowAfter.CapacityVeloc = slowCache.EmergencyCapacityVeloc :=
  have hres : (classifyStep (insertStep oscCache 5 50)).lastPeak ≠ 0 ∧
      (classifyStep (insertStep oscCache 5 50)).lastValley ≠ 0 := by decide!
  have hd1 : oscCache.CapacityDecel < 1 := by decide!
  have hv : 0 < oscCache.CapacityVeloc := by decide!
  have hfloor : oscCache.MinCapacityVeloc ≤ oscCache.CapacityDecel * oscCache.CapacityVeloc := by
    decide!
  have ht : oscCache.TargetHitRate ≠ 0 := by decide!
  have hres2 : (classifyStep (insertStep slowCache 5 50)).lastPeak ≠ 0 ∧
      (classifyStep (insertStep slowCache 5 50)).lastValley ≠ 0 := by decide!
  have hlow : slowCache.CapacityDecel * slowCache.CapacityVeloc < slowCache.MinCapacityVeloc := by
    decide!
  have hrate : HitRate slowCache < slowCache.TargetHitRate * slowCache.EmergencyThreshold := by
    decide!
  ⟨hres, hd1, hv, hfloor, ht, Put_oscCache,
    ((damping_scales_velocity oscCache 5 50 hres hd1 hv).2.2.2 oscAfter ht Put_oscCache).1
      hfloor,
    hres2, hlow, hrate, Put_slowCache,
    ((damping_scales_velocity slowCache 5 50 hres2 (by decide!) (by decide!)).2.2.2 slowAfter
      (by decide!) Put_slowCache).2.1 hlow hrate⟩
theorem controllerStep_latch (c : LRUCache K V)
    (h : ¬ (c.lastPeak ≠ 0 ∧ c.lastValley ≠ 0)) :
    ¬ ((controllerStep c).lastPeak ≠ 0 ∧ (controllerStep c).lastValley ≠ 0) := by
  obtain ⟨_, _, _, hp, hv, _⟩ := controllerStep_fields c
  rw [hp, hv]
  by_cases hres : (classifyStep c).lastPeak ≠ 0 ∧ (classifyStep c).lastValley ≠ 0
  · obtain ⟨_, _, _, _, dv, dp⟩ := dampedState_of_resolved c hres
    rw [dv, dp]
    have hcl := classifyStep_eq c
    have hP : (classifyStep c).lastPeak = if isPeak c then c.capacities1 else c.lastPeak := by
      rw [hcl]
    have hV : (classifyStep c).lastValley =
        if justValleyed c then c.capacities1 else c.lastValley := by
      rw [hcl]
    cases hjp : isPeak c
    · cases hjv : justValleyed c
      · exfalso
        rw [hP, hV, hjp, hjv] at hres
        exact h hres
      · intro hh
        simp at hh
    · intro hh
      simp [justPeaked, hjp] at hh
  · obtain ⟨_, _, _, _, dv, dp⟩ := dampedState_of_not_resolved c hres
    rw [dv, dp]
    exact hres

theorem Put_latch {c c' : LRUCache K V} {key : K} {value : V}
    (h : ¬ (c.lastPeak ≠ 0 ∧ c.lastValley ≠ 0)) (hp : Put c key value = some c') :
    ¬ (c'.lastPeak ≠ 0 ∧ c'.lastValley ≠ 0) := by
  by_cases ht : c.TargetHitRate = 0
  · rw [Put_of_target_eq_zero key value ht, Option.some.injEq] at hp
    rw [← hp, insertStep_frame]
    exact h
  · have h1 := Put_eq_controller ht hp
    rw [h1]
    exact controllerStep_latch c h

/-- C15: in every state reachable from `NewLRUCache()` by `WithCapacity`, writes to the public
configuration fields, `Put` and `Get`, `lastPeak` and `lastValley` are not both non-zero. -/
theorem latch_never_both_set [Inhabited V] (c : LRUCache K V) (hr : Reachable c) :
    ¬ (LastPeak c ≠ 0 ∧ LastValley c ≠ 0) := by
  induction hr with
  | new => simp [LastPeak, LastValley, NewLRUCache]
  | withCapacity capacity _ ih => exact ih
  | configure a b t lo hi d th em _ ih => exact ih
  | put key value _ hp ih => exact Put_latch ih hp
  | get key _ ih =>
    rename_i c0 _
    have := Get_frame c0 key
    unfold LastPeak LastValley at *
    rw [this]
    exact ih

theorem oscAfter_reachable : Reachable oscAfter :=
  Reachable.put 5 50
    (run_reachable oscCalls (Reachable.withCapacity 3 Reachable.new) run_oscCalls) Put_oscCache

/-- Witness of `latch_never_both_set`: after the resolved oscillation only the valley is kept. -/
theorem latch_never_both_set_witness :
    Reachable oscAfter ∧ LastPeak oscAfter = 0 ∧ LastValley oscAfter = 29 / 10 ∧
    ¬ (LastPeak oscAfter ≠ 0 ∧ LastValley oscAfter ≠ 0) :=
  ⟨oscAfter_reachable, rfl, rfl, latch_never_both_set oscAfter oscAfter_reachable⟩
/-- C16: in every `Put` in which `lastPeak ≠ 0` and `lastValley ≠ 0` after the classification,
whatever the hit rate and the directional step did, the controller leaves the two lagging slots
at the midpoint `(lastPeak + lastValley) / 2` and the leading slot at the midpoint clamped to
the configured bounds; when the midpoint lies within the bounds all three slots are equal; a
`Put` with `TargetHitRate ≠ 0` that returns has this window. -/
theorem damping_sets_window (c : LRUCache K V) (key : K) (value : V)
    (hres : (classifyStep (insertStep c key value)).lastPeak ≠ 0 ∧
      (classifyStep (insertStep c key value)).lastValley ≠ 0) :
    window (controllerStep (insertStep c key value)) =
      (clampToBounds c (midpoint (classifyStep (insertStep c key value))),
        midpoint (classifyStep (insertStep c key value)),
        midpoint (classifyStep (insertStep c key value))) ∧
    (¬ (c.MinCapacity ≠ 0 ∧ midpoint (classifyStep (insertStep c key value)) < c.MinCapacity) →
      ¬ (c.MaxCapacity ≠ 0 ∧ midpoint (classifyStep (insertStep c key value)) > c.MaxCapacity) →
      window (controllerStep (insertStep c key value)) =
        (midpoint (classifyStep (insertStep c key value)),
          midpoint (classifyStep (insertStep c key value)),
          midpoint (classifyStep (insertStep c key value)))) ∧
    (∀ c', c.TargetHitRate ≠ 0 → Put c key value = some c' →
      Capacity c' = clampToBounds c (midpoint (classifyStep (insertStep c key value))) ∧
      c'.capacities1 = midpoint (classifyStep (insertStep c key value)) ∧
      c'.capacities2 = midpoint (classifyStep (insertStep c key value))) := by
  obtain ⟨f0, f1, f2, _⟩ := controllerStep_insert_fields c key value
  obtain ⟨d0, d1, d2, _⟩ := dampedState_of_resolved _ hres
  have hw : window (controllerStep (insertStep c key value)) =
      (clampToBounds c (midpoint (classifyStep (insertStep c key value))),
        midpoint (classifyStep (insertStep c key value)),
        midpoint (classifyStep (insertStep c key value))) := by
    unfold Capacity at f0
    simp only [window, midpoint, f0, f1, f2, d0, d1, d2]
  refine ⟨hw, ?_, ?_⟩
  · intro h1 h2
    rw [hw, clampToBounds_of_within c _ h1 h2]
  · intro c' ht h
    obtain ⟨hw', _⟩ := Put_controller_fields ht h
    rw [hw] at hw'
    simp only [window, Prod.mk.injEq] at hw'
    exact hw'

/-- Witness of `damping_sets_window`: `Put(5, 50)` on `oscCache` sets the three slots to
`(3 + 2.9) / 2 = 2.95`. -/
theorem damping_sets_window_witness :
    ((classifyStep (insertStep oscCache 5 50)).lastPeak ≠ 0 ∧
      (classifyStep (insertStep oscCache 5 50)).lastValley ≠ 0) ∧
    midpoint (classifyStep (insertStep oscCache 5 50)) = 59 / 20 ∧
    oscCache.TargetHitRate ≠ 0 ∧ Put oscCache 5 50 = some oscAfter ∧
    Capacity oscAfter = clampToBounds oscCache (midpoint (classifyStep (insertStep oscCache 5 50))) ∧
    oscAfter.capacities1 = midpoint (classifyStep (insertStep oscCache 5 50)) ∧
    oscAfter.capacities2 = midpoint (classifyStep (insertStep oscCache 5 50)) :=
  have hres : (classifyStep (insertStep oscCache 5 50)).lastPeak ≠ 0 ∧
      (classifyStep (insertStep oscCache 5 50)).lastValley ≠ 0 := by decide!
  have ht : oscCache.TargetHitRate ≠ 0 := by decide!
  ⟨hres, by decide!, ht, Put_oscCache,
    (damping_sets_window oscCache 5 50 hres).2.2 oscAfter ht Put_oscCache⟩

/-- C17: in every `Put` in which damping does not fire (`lastPeak` and `lastValley` are not
both non-zero after the classification) and no bound clamps the value left by the directional
step, with window `(c0, c1, c2)` and velocity `v` before the `Put`, the controller leaves the
window `(c0 - v, c0, c1)` if `HitRate() > TargetHitRate`, `(c0 + v, c0, c1)` if
`HitRate() < TargetHitRate`, and `(c0, c1, c2)` if they are equal; a `Put` with
`TargetHitRate ≠ 0` that returns has this window. -/
theorem directional_step_window (c : LRUCache K V) (key : K) (value : V)
    (hnr : ¬ ((classifyStep (insertStep c key value)).lastPeak ≠ 0 ∧
      (classifyStep (insertStep c key value)).lastValley ≠ 0))
    (hlo : ¬ (c.MinCapacity ≠ 0 ∧
      (dampedState (insertStep c key value)).capacities0 < c.MinCapacity))
    (hhi : ¬ (c.MaxCapacity ≠ 0 ∧
      (dampedState (insertStep c key value)).capacities0 > c.MaxCapacity)) :
    (HitRate c > c.TargetHitRate →
      window (controllerStep (insertStep c key value)) =
        (c.capacities0 - c.CapacityVeloc, c.capacities0, c.capacities1)) ∧
    (HitRate c < c.TargetHitRate →
      window (controllerStep (insertStep c key value)) =
        (c.capacities0 + c.CapacityVeloc, c.capacities0, c.capacities1)) ∧
    (HitRate c = c.TargetHitRate →
      window (controllerStep (insertStep c key value)) = window c) ∧
    (∀ c', c.TargetHitRate ≠ 0 → Put c key value = some c' →
      window c' = window (controllerStep (insertStep c key value))) := by
  obtain ⟨f0, f1, f2, _⟩ := controllerStep_insert_fields c key value
  obtain ⟨d0, d1, d2, _⟩ := dampedState_of_not_resolved _ hnr
  have hf := insertStep_frame c key value
  have e0 : (insertStep c key value).capacities0 = c.capacities0 := by rw [hf]
  have e1 : (insertStep c key value).capacities1 = c.capacities1 := by rw [hf]
  have e2 : (insertStep c key value).capacities2 = c.capacities2 := by rw [hf]
  have e3 : (insertStep c key value).CapacityVeloc = c.CapacityVeloc := by rw [hf]
  have e4 : (insertStep c key value).TargetHitRate = c.TargetHitRate := by rw [hf]
  have e5 := insertStep_hitRate c key value
  rw [e0, e3, e4, e5] at d0
  rw [e0, e1, e4, e5] at d1
  rw [e1, e2, e4, e5] at d2
  rw [clampToBounds_of_within c _ hlo hhi] at f0
  unfold Capacity at f0
  refine ⟨?_, ?_, ?_, ?_⟩
  · intro h
    simp only [window, f0, f1, f2, d0, d1, d2, h, if_true, true_or]
  · intro h
    have h' : ¬ HitRate c > c.TargetHitRate := not_lt.2 h.le
    simp only [window, f0, f1, f2, d0, d1, d2, h, h', if_true, if_false, or_true]
  · intro h
    have h1 : ¬ HitRate c > c.TargetHitRate := by rw [h]; exact lt_irrefl _
    have h2 : ¬ HitRate c < c.TargetHitRate := by rw [h]; exact lt_irrefl _
    simp only [window, f0, f1, f2, d0, d1, d2, h1, h2, if_false, or_self]
  · intro c' ht h
    exact (Put_controller_fields ht h).1
theorem Put_hitCache : Put hitCache 3 30 = some hitAfter := by decide!

/-- Witness of `directional_step_window`: with hit rate 2/3 above the target 1/2, the window
(3, 3, 3) becomes (2.9, 3, 3). -/
theorem directional_step_window_witness :
    ¬ ((classifyStep (insertStep hitCache 3 30)).lastPeak ≠ 0 ∧
      (classifyStep (insertStep hitCache 3 30)).lastValley ≠ 0) ∧
    ¬ (hitCache.MinCapacity ≠ 0 ∧
      (dampedState (insertStep hitCache 3 30)).capacities0 < hitCache.MinCapacity) ∧
    ¬ (hitCache.MaxCapacity ≠ 0 ∧
      (dampedState (insertStep hitCache 3 30)).capacities0 > hitCache.MaxCapacity) ∧
    HitRate hitCache > hitCache.TargetHitRate ∧ hitCache.TargetHitRate ≠ 0 ∧
    Put hitCache 3 30 = some hitAfter ∧
    window (controllerStep (insertStep hitCache 3 30)) =
      (hitCache.capacities0 - hitCache.CapacityVeloc, hitCache.capacities0,
        hitCache.capacities1) ∧
    window hitAfter = window (controllerStep (insertStep hitCache 3 30)) :=
  have hnr : ¬ ((classifyStep (insertStep hitCache 3 30)).lastPeak ≠ 0 ∧
      (classifyStep (insertStep hitCache 3 30)).lastValley ≠ 0) := by decide!
  have hlo : ¬ (hitCache.MinCapacity ≠ 0 ∧
      (dampedState (insertStep hitCache 3 30)).capacities0 < hitCache.MinCapacity) := by decide!
  have hhi : ¬ (hitCache.MaxCapacity ≠ 0 ∧
      (dampedState (insertStep hitCache 3 30)).capacities0 > hitCache.MaxCapacity) := by decide!
  have hgt : HitRate hitCache > hitCache.TargetHitRate := by decide!
  have ht : hitCache.TargetHitRate ≠ 0 := by decide!
  ⟨hnr, hlo, hhi, hgt, ht, Put_hitCache,
    (directional_step_window hitCache 3 30 hnr hlo hhi).1 hgt,
    (directional_step_window hitCache 3 30 hnr hlo hhi).2.2.2 hitAfter ht Put_hitCache⟩

/-- C18: in every `Put`, with `v` the velocity after the damping step: the controller leaves
`CapacityVeloc = v` if `v ≥ MinCapacityVeloc`; otherwise `EmergencyCapacityVeloc` when
`HitRate() < TargetHitRate * EmergencyThreshold` and `MinCapacityVeloc` when not.  So afterwards
`CapacityVeloc ≥ MinCapacityVeloc` or `CapacityVeloc = EmergencyCapacityVeloc`; a `Put` with
`TargetHitRate ≠ 0` that returns has this velocity, and on a state satisfying the store
invariant, for a key equal to itself and an integer capacity of at least 1, `Put` returns. -/
theorem emergency_escape (c : LRUCache K V) (key : K) (value : V) :
    (c.MinCapacityVeloc ≤ (dampedState (insertStep c key value)).CapacityVeloc →
      (controllerStep (insertStep c key value)).CapacityVeloc =
        (dampedState (insertStep c key value)).CapacityVeloc) ∧
    ((dampedState (insertStep c key value)).CapacityVeloc < c.MinCapacityVeloc →
      HitRate c < c.TargetHitRate * c.EmergencyThreshold →
      (controllerStep (insertStep c key value)).CapacityVeloc = c.EmergencyCapacityVeloc) ∧
    ((dampedState (insertStep c key value)).CapacityVeloc < c.MinCapacityVeloc →
      ¬ HitRate c < c.TargetHitRate * c.EmergencyThreshold →
      (controllerStep (insertStep c key value)).CapacityVeloc = c.MinCapacityVeloc) ∧
    (c.MinCapacityVeloc ≤ (controllerStep (insertStep c key value)).CapacityVeloc ∨
      (controllerStep (insertStep c key value)).CapacityVeloc = c.EmergencyCapacityVeloc) ∧
    (∀ c', c.TargetHitRate ≠ 0 → Put c key value = some c' →
      c'.CapacityVeloc = (controllerStep (insertStep c key value)).CapacityVeloc ∧
      (c.MinCapacityVeloc ≤ c'.CapacityVeloc ∨ c'.CapacityVeloc = c.EmergencyCapacityVeloc)) ∧
    (StoreInv c → GoKey.selfEq key = true → c.TargetHitRate ≠ 0 →
      1 ≤ IntCapacity (controllerStep (insertStep c key value)) →
      ∃ c', Put c key value = some c' ∧
        c'.CapacityVeloc = (controllerStep (insertStep c key value)).CapacityVeloc ∧
        (c.MinCapacityVeloc ≤ c'.CapacityVeloc ∨
          c'.CapacityVeloc = c.EmergencyCapacityVeloc)) := by
  have hv := (controllerStep_insert_fields c key value).2.2.2.2.2
  have hor : c.MinCapacityVeloc ≤ (controllerStep (insertStep c key value)).CapacityVeloc ∨
      (controllerStep (insertStep c key value)).CapacityVeloc = c.EmergencyCapacityVeloc := by
    rw [hv]
    by_cases h1 : (dampedState (insertStep c key value)).CapacityVeloc < c.MinCapacityVeloc
    · by_cases h2 : HitRate c < c.TargetHitRate * c.EmergencyThreshold
      · rw [if_pos h1, if_pos h2]; exact Or.inr rfl
      · rw [if_pos h1, if_neg h2]; exact Or.inl (le_refl _)
    · rw [if_neg h1]; exact Or.inl (not_lt.1 h1)
  refine ⟨?_, ?_, ?_, hor, ?_, ?_⟩
  · intro h
    rw [hv, if_neg (not_lt.2 h)]
  · intro h1 h2
    rw [hv, if_pos h1, if_pos h2]
  · intro h1 h2
    rw [hv, if_pos h1, if_neg h2]
  · intro c' ht h
    obtain ⟨_, hvel, _⟩ := Put_controller_fields ht h
    rw [hvel]
    exact ⟨rfl, hor⟩
  · intro hc hs ht hcap
    obtain ⟨c', h1, _⟩ := Put_spec key value hc hs ht hcap
    obtain ⟨_, hvel, _⟩ := Put_controller_fields ht h1
    exact ⟨c', h1, hvel, hvel ▸ hor⟩


/-- Witness of `emergency_escape`: on `slowCache` the damped velocity 0.0009 is below the floor
0.001 and the hit rate 0.4 below 0.45, so `Put(5, 50)` returns with `EmergencyCapacityVeloc`;
on `oscCache` the damped velocity 0.09 is above the floor and `Put(5, 50)` returns with it. -/
theorem emergency_escape_witness :
    (dampedState (insertStep slowCache 5 50)).CapacityVeloc < slowCache.MinCapacityVeloc ∧
    HitRate slowCache < slowCache.TargetHitRate * slowCache.EmergencyThreshold ∧
    (controllerStep (insertStep slowCache 5 50)).CapacityVeloc =
      slowCache.EmergencyCapacityVeloc ∧
    slowCache.TargetHitRate ≠ 0 ∧ Put slowCache 5 50 = some slowAfter ∧
    slowAfter.CapacityVeloc = (controllerStep (insertStep slowCache 5 50)).CapacityVeloc ∧
    slowAfter.CapacityVeloc = 1 / 10 ∧
    oscCache.MinCapacityVeloc ≤ (dampedState (insertStep oscCache 5 50)).CapacityVeloc ∧
    Put oscCache 5 50 = some oscAfter ∧
    oscAfter.CapacityVeloc = (dampedState (insertStep oscCache 5 50)).CapacityVeloc :=
  have h1 : (dampedState (insertStep slowCache 5 50)).CapacityVeloc <
      slowCache.MinCapacityVeloc := by decide!
  have h2 : HitRate slowCache < slowCache.TargetHitRate * slowCache.EmergencyThreshold := by
    decide!
  have ht : slowCache.TargetHitRate ≠ 0 := by decide!
  have h3 : oscCache.MinCapacityVeloc ≤ (dampedState (insertStep oscCache 5 50)).CapacityVeloc := by
    decide!
  ⟨h1, h2, (emergency_escape slowCache 5 50).2.1 h1 h2, ht, Put_slowCache,
    ((emergency_escape slowCache 5 50).2.2.2.2.1 slowAfter ht Put_slowCache).1, rfl, h3,
    Put_oscCache,
    (((emergency_escape oscCache 5 50).2.2.2.2.1 oscAfter (by decide!) Put_oscCache).1).trans
      ((emergency_escape oscCache 5 50).1 h3)⟩
theorem evictRounds_le (cap : Int) :
    ∀ (r : List (Element K V)) (m : List (K × Nat)), evictRounds cap m r ≤ r.length := by
  intro r
  induction r with
  | nil => intro m; simp [evictRounds]
  | cons e r ih =>
    intro m
    by_cases hc : (m.length : Int) ≥ cap
    · simp only [evictRounds, hc, if_true, List.length_cons]
      exact Nat.succ_le_succ (ih _)
    · simp [evictRounds, hc]

/-- Every round of the loop removes one element: when the loop returns, the elements left and
the rounds run add up to the elements at the start. -/
theorem evictLoop_rounds (cap : Int) :
    ∀ (r : List (Element K V)) (m : List (K × Nat)) (res : List (K × Nat) × List (Element K V)),
      evictLoop cap m r = some res → res.2.length + evictRounds cap m r = r.length := by
  intro r
  induction r with
  | nil =>
    intro m res h
    by_cases hc : (m.length : Int) ≥ cap
    · simp [evictLoop, hc] at h
    · simp only [evictLoop, hc, if_false, Option.some.injEq] at h
      subst h
      simp [evictRounds]
  | cons e r ih =>
    intro m res h
    by_cases hc : (m.length : Int) ≥ cap
    · simp only [evictLoop, hc, if_true] at h
      have := ih _ _ h
      simp only [evictRounds, hc, if_true, List.length_cons]
      omega
    · simp only [evictLoop, hc, if_false, Option.some.injEq] at h
      subst h
      simp [evictRounds, hc]

theorem one_le_truncToInt {x : ℚ} (h : 1 ≤ x) (h2 : x < 2 ^ 63) : 1 ≤ truncToInt x := by
  rw [truncToInt_of_lt (by linarith) h2]
  exact Int.le_floor.2 (by exact_mod_cast h)

theorem one_le_clampToBounds (c : LRUCache K V) (x : ℚ) (hmin : 1 ≤ c.MinCapacity)
    (hmax : c.MaxCapacity = 0 ∨ 1 ≤ c.MaxCapacity) : 1 ≤ clampToBounds c x := by
  have hne : c.MinCapacity ≠ 0 := by
    intro h; rw [h] at hmin; norm_num at hmin
  unfold clampToBounds
  by_cases hB : c.MaxCapacity ≠ 0 ∧
      (if c.MinCapacity ≠ 0 ∧ x < c.MinCapacity then c.MinCapacity else x) > c.MaxCapacity
  · rw [if_pos hB]
    exact hmax.resolve_left hB.1
  · rw [if_neg hB]
    by_cases hA : c.MinCapacity ≠ 0 ∧ x < c.MinCapacity
    · rw [if_pos hA]; exact hmin
    · rw [if_neg hA]
      exact le_trans hmin (not_lt.1 (fun hlt => hA ⟨hne, hlt⟩))

/-- C19 (as stated): with the default configuration (`TargetHitRate = 0.5`, `MinCapacity = 1`,
`MaxCapacity = 0`) and an empty store, `Put(NaN, 0)` with a `float64` key panics on
`NewLRUCache()`: the map never deletes the NaN key, so the loop drains the list.  And
`Put(1, 10)` panics on `NewLRUCache().WithCapacity(1e19)`: `int(1e19)` is the smallest
`int64`. -/
theorem Put_panics_under_bounds :
    StoreInv (NewLRUCache : LRUCache FloatKey Nat) ∧
    (NewLRUCache : LRUCache FloatKey Nat).TargetHitRate ≠ 0 ∧
    1 ≤ (NewLRUCache : LRUCache FloatKey Nat).MinCapacity ∧
    (NewLRUCache : LRUCache FloatKey Nat).MaxCapacity = 0 ∧
    Put (NewLRUCache : LRUCache FloatKey Nat) FloatKey.nan 0 = none ∧
    StoreInv (WithCapacity (NewLRUCache : LRUCache Nat Nat) (10 ^ 19)) ∧
    (WithCapacity (NewLRUCache : LRUCache Nat Nat) (10 ^ 19)).TargetHitRate ≠ 0 ∧
    1 ≤ (WithCapacity (NewLRUCache : LRUCache Nat Nat) (10 ^ 19)).MinCapacity ∧
    (WithCapacity (NewLRUCache : LRUCache Nat Nat) (10 ^ 19)).MaxCapacity = 0 ∧
    Put (WithCapacity (NewLRUCache : LRUCache Nat Nat) (10 ^ 19)) 1 10 = none := by
  refine ⟨by decide, by decide!, by decide!, rfl, by decide!, by decide, by decide!, by decide!,
    rfl, by decide!⟩

/-- C19 (amended): if `TargetHitRate ≠ 0`, `MinCapacity ≥ 1` and (`MaxCapacity = 0` or
`MaxCapacity ≥ 1`), then on every state satisfying the store invariant (no stored key differs
from itself), for every key equal to itself and every value for which the leading capacity
after the controller is below `2 ^ 63`: that capacity is at least 1, `Put` returns (so the loop
never removes from an empty order list), and its eviction loop runs at most as many rounds as
there are entries after the insertion step, each round removing one entry. -/
theorem Put_returns_under_bounds (c : LRUCache K V) (key : K) (value : V)
    (hc : StoreInv c) (hs : GoKey.selfEq key = true) (ht : c.TargetHitRate ≠ 0)
    (hmin : 1 ≤ c.MinCapacity) (hmax : c.MaxCapacity = 0 ∨ 1 ≤ c.MaxCapacity)
    (hr : Capacity (controllerStep (insertStep c key value)) < 2 ^ 63) :
    1 ≤ (clampMax (clampMin (dampedState (insertStep c key value)))).capacities0 ∧
    1 ≤ IntCapacity (controllerStep (insertStep c key value)) ∧
    ∃ c', Put c key value = some c' ∧ 1 ≤ Capacity c' ∧
      evictRounds (IntCapacity (controllerStep (insertStep c key value)))
        (insertStep c key value).cache (insertStep c key value).list.reverse ≤
        (insertStep c key value).list.length ∧
      c'.list.length +
        evictRounds (IntCapacity (controllerStep (insertStep c key value)))
          (insertStep c key value).cache (insertStep c key value).list.reverse =
        (insertStep c key value).list.length := by
  obtain ⟨f0, _⟩ := controllerStep_insert_fields c key value
  have h1 : 1 ≤ Capacity (controllerStep (insertStep c key value)) := by
    rw [f0]; exact one_le_clampToBounds c _ hmin hmax
  have h0 : (clampMax (clampMin (dampedState (insertStep c key value)))).capacities0 =
      Capacity (controllerStep (insertStep c key value)) := by
    rw [controllerStep_eq, emergencyStep_eq]; rfl
  have hI : 1 ≤ IntCapacity (controllerStep (insertStep c key value)) :=
    one_le_truncToInt h1 hr
  obtain ⟨c', h2, _, h3, _⟩ := Put_spec key value hc hs ht hI
  refine ⟨h0 ▸ h1, hI, c', h2, ?_, ?_, ?_⟩
  · rw [h3]; exact h1
  · have := evictRounds_le (IntCapacity (controllerStep (insertStep c key value)))
      (insertStep c key value).list.reverse (insertStep c key value).cache
    rwa [List.length_reverse] at this
  · rw [Put_of_target_ne_zero key value ht] at h2
    unfold evictStep at h2
    rw [controllerStep_cache, controllerStep_list] at h2
    cases hr : evictLoop (IntCapacity (controllerStep (insertStep c key value)))
        (insertStep c key value).cache (insertStep c key value).list.reverse with
    | none => rw [hr] at h2; simp at h2
    | some res =>
      rw [hr, Option.map_some', Option.some.injEq] at h2
      have := evictLoop_rounds _ _ _ _ hr
      rw [List.length_reverse] at this
      rw [← h2]
      simpa using this

/-- Witness of `Put_returns_under_bounds`: `Put(3, 30)` on the capacity-3 cache holding two
entries runs one round of the loop. -/
theorem Put_returns_under_bounds_witness :
    StoreInv cache3b ∧ GoKey.selfEq (3 : Nat) = true ∧ cache3b.TargetHitRate ≠ 0 ∧
    1 ≤ cache3b.MinCapacity ∧ (cache3b.MaxCapacity = 0 ∨ 1 ≤ cache3b.MaxCapacity) ∧
    Capacity (controllerStep (insertStep cache3b 3 30)) < 2 ^ 63 ∧
    evictRounds (IntCapacity (controllerStep (insertStep cache3b 3 30)))
      (insertStep cache3b 3 30).cache (insertStep cache3b 3 30).list.reverse = 1 ∧
    1 ≤ (clampMax (clampMin (dampedState (insertStep cache3b 3 30)))).capacities0 ∧
    1 ≤ IntCapacity (controllerStep (insertStep cache3b 3 30)) ∧
    ∃ c', Put cache3b 3 30 = some c' ∧ 1 ≤ Capacity c' ∧
      evictRounds (IntCapacity (controllerStep (insertStep cache3b 3 30)))
        (insertStep cache3b 3 30).cache (insertStep cache3b 3 30).list.reverse ≤
        (insertStep cache3b 3 30).list.length ∧
      c'.list.length +
        evictRounds (IntCapacity (controllerStep (insertStep cache3b 3 30)))
          (insertStep cache3b 3 30).cache (insertStep cache3b 3 30).list.reverse =
        (insertStep cache3b 3 30).list.length :=
  have ht : cache3b.TargetHitRate ≠ 0 := cache3_target_ne_zero _ _
  have hmin : 1 ≤ cache3b.MinCapacity := by decide!
  have hmax : cache3b.MaxCapacity = 0 ∨ 1 ≤ cache3b.MaxCapacity := Or.inl rfl
  have hr : Capacity (controllerStep (insertStep cache3b 3 30)) < 2 ^ 63 := by decide!
  ⟨by decide, rfl, ht, hmin, hmax, hr, by decide!,
    Put_returns_under_bounds cache3b 3 30 (by decide) rfl ht hmin hmax hr⟩

/-- C20: after every `Put` with `TargetHitRate ≠ 0`, on a state satisfying the store invariant,
that returns with `IntCapacity() = 1`, the store is empty: no binding in the map, no element in
the order list, not even the entry just put.  In particular on `NewLRUCache()`, for every key
and value, the first `Put` returns, leaves `Capacity() = 1` and an empty store, and a following
`Get` of the key returns the zero value and `false` and adds 1 to `misses`. -/
theorem capacity_one_holds_nothing [LawfulKey K] [Inhabited V] (c c' : LRUCache K V) (key : K)
    (value : V)
    (hc : StoreInv c) (ht : c.TargetHitRate ≠ 0) (h : Put c key value = some c')
    (h1 : IntCapacity c' = 1) :
    (c'.cache = [] ∧ c'.list = [] ∧ entries c' = []) ∧
    (∀ (k : K) (v : V), ∃ c1, Put (NewLRUCache : LRUCache K V) k v = some c1 ∧
      Capacity c1 = 1 ∧ c1.cache = [] ∧ c1.list = [] ∧
      Get c1 k = ((default, false), { c1 with misses := c1.misses + 1 }) ∧
      Misses (Get c1 k).2 = Misses c1 + 1) := by
  constructor
  · obtain ⟨_, h2, _⟩ := Put_returns_imp ht h
    rw [h1] at h2
    have hlen : c'.cache.length = 0 := by omega
    have hl : c'.list.length = 0 := by
      rw [← (Put_storeInv hc (LawfulKey.selfEq_true key) h).length_eq]; exact hlen
    have hl' : c'.list = [] := List.length_eq_zero.1 hl
    exact ⟨List.length_eq_zero.1 hlen, hl', by simp [entries, hl']⟩
  · intro k v
    obtain ⟨m', l', hlink, hput, hent⟩ := Put_default (x := 1) (le_refl _) (by norm_num)
      ([] : List (K × Nat)) ([] : List (Element K V)) k v (by simp [Linked])
    have ht1 : truncToInt (1 : ℚ) = 1 := by decide!
    rw [ht1] at hent
    have hl' : l' = [] := by
      have := congrArg List.length hent
      simp at this
      exact this
    have hm' : m' = [] := by
      have := hlink.length_eq
      rw [hl'] at this
      exact List.length_eq_zero.1 this
    subst hl' hm'
    refine ⟨_, hput, rfl, rfl, rfl, ?_, ?_⟩
    · exact Get_absent (by simp)
    · rw [Get_absent (by simp)]
      rfl

/-- Witness of `capacity_one_holds_nothing`: the first `Put` on `NewLRUCache()`. -/
theorem capacity_one_holds_nothing_witness :
    StoreInv (NewLRUCache : LRUCache Nat Nat) ∧
    (NewLRUCache : LRUCache Nat Nat).TargetHitRate ≠ 0 ∧
    Put (NewLRUCache : LRUCache Nat Nat) 7 70 = some NewLRUCache ∧
    IntCapacity (NewLRUCache : LRUCache Nat Nat) = 1 ∧
    (NewLRUCache : LRUCache Nat Nat).cache = [] ∧ (NewLRUCache : LRUCache Nat Nat).list = [] ∧
    entries (NewLRUCache : LRUCache Nat Nat) = [] :=
  have hc : StoreInv (NewLRUCache : LRUCache Nat Nat) := by decide
  have ht : (NewLRUCache : LRUCache Nat Nat).TargetHitRate ≠ 0 := by decide!
  have hp : Put (NewLRUCache : LRUCache Nat Nat) 7 70 = some NewLRUCache := by decide!
  have h1 : IntCapacity (NewLRUCache : LRUCache Nat Nat) = 1 := by decide!
  ⟨hc, ht, hp, h1, (capacity_one_holds_nothing NewLRUCache NewLRUCache 7 70 hc ht hp h1).1⟩

end Proofs

end Lyru
